import Mathlib

/-!
Verification development for the answer-extraction-and-consensus subsystem of the
CS546 MajorityErrorDebate repository.  The Python helpers of
`gsm/compare_accuracies.py`, `gsm/analyze_results.py`,
`gsm/legacy/eval_math_critic_actor.py` and the weighted-voting block of
`gsm/gen_math_critic_actor_3_7.py` are shallowly embedded over `List Char`
(strings) and `ℚ` (numeric values), and the repository's documented properties
are proved or refuted against the embedding.
-/

namespace Gsm

/-- Characters matched by `\s` in the repository's regular expressions and
stripped by Python's `str.strip()` (ASCII fragment; all inputs considered here
are ASCII). -/
def pyIsSpace (c : Char) : Bool :=
  c == ' ' || c == '\t' || c == '\n' || c == '\r' || c == '\x0b' || c == '\x0c'

/-- Python `str.strip()`: remove whitespace from both ends. -/
def pyStrip (l : List Char) : List Char :=
  ((l.dropWhile pyIsSpace).reverse.dropWhile pyIsSpace).reverse

/-- First element among `a :: l` attaining the maximal value of `f`, scanning
left to right and replacing the current best only on a strictly larger value.
This is the selection rule shared by the legacy `most_frequent` loop
(`counter < current_frequency`), by `Counter.most_common(1)` (which calls
`max()` over insertion-ordered items) and by Python's `max(d, key=d.get)`. -/
def firstMaxBy {α β : Type} [LinearOrder β] (f : α → β) : α → List α → α
  | a, [] => a
  | a, y :: t => firstMaxBy f (if f a < f y then y else a) t

/-- Accumulating pass that collects the distinct elements of a list in order of
first occurrence, starting from already-collected keys `acc`.  This is the key
order of a Python `dict` / `collections.Counter` built by insertion. -/
def keysAux {α : Type} [DecidableEq α] : List α → List α → List α
  | acc, [] => acc
  | acc, x :: t => keysAux (if x ∈ acc then acc else acc ++ [x]) t

/-- The distinct elements of `l` in order of first occurrence: the iteration
order of the keys of `collections.Counter(l)`. -/
def keysOf {α : Type} [DecidableEq α] (l : List α) : List α := keysAux [] l

/-- Embedding of `most_frequent` from `gsm/legacy/eval_math_critic_actor.py`: a loop keeping
`counter`/`num` (initially `0` / `List[0]`), recomputing `List.count(i)` for
every element `i` in order, and updating only on a strictly larger count. -/
def most_frequent_legacy (l : List (List Char)) : Option (List Char) :=
  match l with
  | [] => none
  | x :: _ =>
    some (l.foldl (fun acc i => if acc.1 < l.count i then (l.count i, i) else acc) (0, x)).2

/-- Embedding of `most_frequent` from `gsm/compare_accuracies.py`, which builds
`collections.Counter(List)` and returns `counts.most_common(1)[0][0]`.  A
`Counter` tallies multiplicities keyed in first-occurrence (insertion) order,
and `most_common(1)` calls `max()` over those insertion-ordered items, so the
first key with maximal count wins; the `if not List` / `if not counts` guards
mirror the source. -/
def most_frequent_counter (l : List (List Char)) : Option (List Char) :=
  if l = [] then none
  else
    match keysOf l with
    | [] => none
    | k :: ks => some (firstMaxBy (fun y => l.count y) k ks)

/-- The tally built inside `most_frequent` (the `Counter` as an
insertion-ordered association list from answers to their multiplicities). -/
def counterOf (l : List (List Char)) : List (List Char × Nat) :=
  (keysOf l).map (fun k => (k, l.count k))

/-! ### The Extractor of `gsm/compare_accuracies.py` (`parse_answer`)

`parse_answer` first runs `re.search(r"####\s*(.+)", text)` and returns the
stripped capture; otherwise it returns the last match of
`re.findall(r"[-+]?\d*\.\d+|\d+", text)`, or `None`. -/

/-- The four characters of the GSM8K delimiter `####`. -/
def hashChars : List Char := ['#', '#', '#', '#']

/-- Attempt of `\s*(.+)` on the characters `r` following `####`: the greedy
whitespace run is consumed, then `.+` needs at least one non-newline character,
backtracking into the whitespace run if everything after it fails.  Returns the
capture of `(.+)` (which runs to the next newline or the end), or `none`. -/
def matchHashAt (r : List Char) : Option (List Char) :=
  match r.dropWhile pyIsSpace with
  | c :: rest => some ((c :: rest).takeWhile (fun x => x != '\n'))
  | [] =>
    match (r.takeWhile pyIsSpace).reverse.find? (fun c => c != '\n') with
    | some c => some [c]
    | none => none

/-- Embedding of `re.search(r"####\s*(.+)", s)`: scan left to right for a position where the
whole pattern matches, returning the capture. -/
def searchHash : List Char → Option (List Char)
  | [] => none
  | c :: t =>
    if (c :: t).take 4 = hashChars then
      match matchHashAt ((c :: t).drop 4) with
      | some g => some g
      | none => searchHash t
    else searchHash t

/-- One attempt of the alternation `[-+]?\d*\.\d+|\d+` at the current position:
`numBranch2` is the second branch `\d+`. -/
def numBranch2 (s : List Char) : Option (List Char × List Char) :=
  match s with
  | c :: _ => if c.isDigit then some (s.takeWhile Char.isDigit, s.dropWhile Char.isDigit) else none
  | [] => none

/-- First branch `[-+]?\d*\.\d+` after the optional sign has been split off:
greedy digits, a literal dot, then at least one digit.  Returns the matched
token (sign included) and the remainder. -/
def numBranch1 (sgn s1 : List Char) : Option (List Char × List Char) :=
  match s1.dropWhile Char.isDigit with
  | [] => none
  | c :: s3 =>
    if c = '.' then
      if s3.takeWhile Char.isDigit = [] then none
      else some (sgn ++ s1.takeWhile Char.isDigit ++ '.' :: s3.takeWhile Char.isDigit,
                 s3.dropWhile Char.isDigit)
    else none

/-- The regex alternation `[-+]?\d*\.\d+|\d+` attempted at the head of `s`:
the first branch is tried (with, then without, the optional sign), then the
second.  Returns the matched token and the rest of the string. -/
def matchNumberAt : List Char → Option (List Char × List Char)
  | [] => none
  | c :: t =>
    if c = '-' ∨ c = '+' then
      match numBranch1 [c] t with
      | some p => some p
      | none => numBranch2 (c :: t)
    else
      match numBranch1 [] (c :: t) with
      | some p => some p
      | none => numBranch2 (c :: t)

/-- Embedding of `re.findall(r"[-+]?\d*\.\d+|\d+", s)`: left-to-right non-overlapping scan;
on a match the scan resumes after the matched token, otherwise it advances one
character.  Structured on explicit fuel (initially the length of `s`) so that
the definition computes by reduction. -/
def findNumbersF : Nat → List Char → List (List Char)
  | 0, _ => []
  | _, [] => []
  | fuel + 1, c :: t =>
    match matchNumberAt (c :: t) with
    | some (tok, rest) => tok :: findNumbersF fuel rest
    | none => findNumbersF fuel t

/-- All matches of `[-+]?\d*\.\d+|\d+` in `s`, in order. -/
def findNumbers (s : List Char) : List (List Char) := findNumbersF s.length s

/-- Embedding of `parse_answer` of `gsm/compare_accuracies.py`.  `None` on the empty string
(`if not solution_text`), else the stripped capture of `####\s*(.+)`, else the
last number found by `findall`, else `None`. -/
def parse_answer_compare (s : List Char) : Option (List Char) :=
  if s = [] then none
  else
    match searchHash s with
    | some g => some (pyStrip g)
    | none => (findNumbers s).reverse.head?

/-! ### The Extractor of `gsm/analyze_results.py` (`parse_answer`)

This variant collects `re.findall(r"\\boxed\{([0-9.,$]*)\}", s)`, walks the
matches from the last to the first keeping the first payload whose
`re.sub(r"[^0-9.]", "", match)` cleaning is non-empty, and falls back to
`re.findall(r"(\d+\.?\d*)\s*$", s)` (a number anchored at the end of the text)
only when `solution` remained `None`, i.e. only when there was no match at all. -/

/-- The literal characters of `\boxed{`. -/
def boxedChars : List Char := ['\x5c', 'b', 'o', 'x', 'e', 'd', '\x7b']

/-- Characters admitted inside the payload by the pattern `[0-9.,$]*`. -/
def boxedAllowed (c : Char) : Bool := c.isDigit || c == '.' || c == ',' || c == '$'

/-- One attempt of `\\boxed\{([0-9.,$]*)\}` at the head of `s`: the literal
prefix, a greedy run of admitted characters, then the closing brace.  Returns
the captured payload and the remainder after the closing brace. -/
def boxedMatchAt (s : List Char) : Option (List Char × List Char) :=
  if s.take 7 = boxedChars then
    match (s.drop 7).dropWhile boxedAllowed with
    | '\x7d' :: rest => some ((s.drop 7).takeWhile boxedAllowed, rest)
    | _ => none
  else none

/-- Embedding of `re.findall(r"\\boxed\{([0-9.,$]*)\}", s)`: left-to-right non-overlapping
scan (fuel-structured, initially the length of `s`). -/
def boxedMatchesF : Nat → List Char → List (List Char)
  | 0, _ => []
  | _, [] => []
  | fuel + 1, c :: t =>
    match boxedMatchAt (c :: t) with
    | some (payload, rest) => payload :: boxedMatchesF fuel rest
    | none => boxedMatchesF fuel t

/-- All payloads captured by `\\boxed\{([0-9.,$]*)\}` in `s`, in order. -/
def boxedMatches (s : List Char) : List (List Char) := boxedMatchesF s.length s

/-- Embedding of `re.sub(r"[^0-9.]", "", m)`: keep only digits and dots. -/
def cleanPayload (m : List Char) : List Char :=
  m.filter (fun c => c.isDigit || c == '.')

/-- The `for match_str in matches[::-1]` loop of `parse_answer`: the variable
`solution` receives the cleaning of each payload from the last backwards,
breaking on the first non-empty cleaning.  When every cleaning is empty the
loop leaves `solution` holding the (empty) cleaning of the first payload; only
an empty match list leaves `solution = None`. -/
def boxedSolution (ms : List (List Char)) : Option (List Char) :=
  match ms.reverse.find? (fun m => decide (cleanPayload m ≠ [])) with
  | some m => some (cleanPayload m)
  | none =>
    match ms with
    | [] => none
    | m0 :: _ => some (cleanPayload m0)

/-- One attempt of `(\d+\.?\d*)\s*$` at the head of `s`: a digit-led number
token, after which only whitespace may remain (Python's `$` also matches just
before a single trailing newline, which the greedy `\s*` covers). -/
def trailingNumberAt (s : List Char) : Option (List Char) :=
  if s.takeWhile Char.isDigit = [] then none
  else
    match s.dropWhile Char.isDigit with
    | [] => some (s.takeWhile Char.isDigit)
    | c :: r2 =>
      if c = '.' then
        if (r2.dropWhile Char.isDigit).all pyIsSpace then
          some (s.takeWhile Char.isDigit ++ '.' :: r2.takeWhile Char.isDigit)
        else none
      else if (c :: r2).all pyIsSpace then some (s.takeWhile Char.isDigit) else none

/-- Embedding of `re.findall(r"(\d+\.?\d*)\s*$", s)` followed by `matches[-1]`: since a
match must be followed by whitespace only, at most one match exists, namely at
the first position admitting one. -/
def lastTrailingNumber : List Char → Option (List Char)
  | [] => none
  | c :: t =>
    match trailingNumberAt (c :: t) with
    | some tok => some tok
    | none => lastTrailingNumber t

/-- Embedding of `parse_answer` of `gsm/analyze_results.py` (identical in
`gsm/legacy/eval_math_critic_actor.py`). -/
def parse_answer_analyze (s : List Char) : Option (List Char) :=
  match boxedSolution (boxedMatches s) with
  | some sol => some sol
  | none => lastTrailingNumber s

/-! ### The Scorer of `gsm/compare_accuracies.py`
(`get_ground_truth` and `check_correctness`) -/

/-- The literal characters of `#### ` (four hashes and a space). -/
def hashSpaceChars : List Char := ['#', '#', '#', '#', ' ']

/-- The capture of `\d+\.?\d*` at the head of `r` (greedy digits, optional dot,
greedy digits), or `none` when `r` does not start with a digit. -/
def gtNumberAt (r : List Char) : Option (List Char) :=
  if r.takeWhile Char.isDigit = [] then none
  else
    match r.dropWhile Char.isDigit with
    | '.' :: r2 => some (r.takeWhile Char.isDigit ++ '.' :: r2.takeWhile Char.isDigit)
    | _ => some (r.takeWhile Char.isDigit)

/-- Embedding of `re.search(r"#### (\d+\.?\d*)", gt)`: scan for a position carrying the
literal `#### ` immediately followed by a digit-led number. -/
def gtSearch : List Char → Option (List Char)
  | [] => none
  | c :: t =>
    if (c :: t).take 5 = hashSpaceChars then
      match gtNumberAt ((c :: t).drop 5) with
      | some g => some g
      | none => gtSearch t
    else gtSearch t

/-- One attempt of `\d+\.?\d*` (the fallback pattern of `get_ground_truth`) at
the head of `s`, returning the token and the remainder. -/
def simpleNumberAt (s : List Char) : Option (List Char × List Char) :=
  if s.takeWhile Char.isDigit = [] then none
  else
    match s.dropWhile Char.isDigit with
    | '.' :: r2 =>
      some (s.takeWhile Char.isDigit ++ '.' :: r2.takeWhile Char.isDigit,
            r2.dropWhile Char.isDigit)
    | r1 => some (s.takeWhile Char.isDigit, r1)

/-- Embedding of `re.findall(r"\d+\.?\d*", s)`: left-to-right non-overlapping scan
(fuel-structured). -/
def findSimpleNumbersF : Nat → List Char → List (List Char)
  | 0, _ => []
  | _, [] => []
  | fuel + 1, c :: t =>
    match simpleNumberAt (c :: t) with
    | some (tok, rest) => tok :: findSimpleNumbersF fuel rest
    | none => findSimpleNumbersF fuel t

/-- Embedding of `get_ground_truth` of `gsm/compare_accuracies.py`: the capture of
`#### (\d+\.?\d*)` when present, else the last match of `\d+\.?\d*`, else
`None`. -/
def get_ground_truth (gt : List Char) : Option (List Char) :=
  match gtSearch gt with
  | some g => some g
  | none => (findSimpleNumbersF gt.length gt).reverse.head?

/-- The natural number denoted by a run of decimal digit characters. -/
def decDigitsVal (l : List Char) : Nat :=
  l.foldl (fun acc c => 10 * acc + (c.toNat - '0'.toNat)) 0

/-- Python `float(str)` on the decimal fragment actually exercised by the
repository's answer strings: optional surrounding whitespace, an optional
sign, then `digits`, `digits.digits`, `.digits` or `digits.`; every other
string (in particular anything containing a comma or a letter) raises
`ValueError`, modelled as `none`.  The exact decimal value is returned as an
integer mantissa together with the number of fractional digits: the pair
`(m, e)` denotes `m / 10 ^ e` (see `decValue`). -/
def pyFloat (s : List Char) : Option (Int × Nat) :=
  let t := pyStrip s
  let core := fun (neg : Bool) (t1 : List Char) =>
    let d1 := t1.takeWhile Char.isDigit
    match t1.dropWhile Char.isDigit with
    | [] =>
      if d1 = [] then none
      else some (if neg then -(decDigitsVal d1 : Int) else (decDigitsVal d1 : Int), 0)
    | '.' :: r2 =>
      let d2 := r2.takeWhile Char.isDigit
      if r2.dropWhile Char.isDigit ≠ [] then none
      else if d1 = [] ∧ d2 = [] then none
      else some (if neg then -(decDigitsVal (d1 ++ d2) : Int) else (decDigitsVal (d1 ++ d2) : Int),
                 d2.length)
    | _ => none
  match t with
  | '-' :: r => core true r
  | '+' :: r => core false r
  | _ => core false t

/-- The rational value denoted by a parsed decimal. -/
def decValue (a : Int × Nat) : ℚ := (a.1 : ℚ) / 10 ^ a.2

/-- Embedding of `np.isclose(a, b)` with the default tolerances `rtol = 1e-05`,
`atol = 1e-08`, i.e. `|a - b| <= atol + rtol * |b|`, evaluated exactly on the
decimal values `a = m1/10^e1`, `b = m2/10^e2` with denominators cleared
(both sides multiplied by the positive `10 ^ (e1 + e2 + 8)`); see
`npIsClose_iff` below for the equivalence with the textbook formula. -/
def npIsClose (a b : Int × Nat) : Bool :=
  decide ((a.1 * 10 ^ b.2 - b.1 * 10 ^ a.2).natAbs * 10 ^ 8 ≤
    10 ^ (a.2 + b.2) + b.1.natAbs * 10 ^ (a.2 + 3))

/-- Embedding of `check_correctness` of `gsm/compare_accuracies.py`: `0` when either side is
`None`; else compare as floats with `np.isclose`; on a parse failure retry with
commas removed from both sides; `0` when still unparseable. -/
def check_correctness (gt_answer final_pred_answer : Option (List Char)) : Nat :=
  match gt_answer, final_pred_answer with
  | some g, some p =>
    match pyFloat g, pyFloat p with
    | some a, some b => if npIsClose a b then 1 else 0
    | _, _ =>
      match pyFloat (g.filter (fun c => c ≠ ',')), pyFloat (p.filter (fun c => c ≠ ',')) with
      | some a, some b => if npIsClose a b then 1 else 0
      | _, _ => 0
  | _, _ => 0

/-- Embedding of `get_final_decision` of `gsm/compare_accuracies.py`: parse every solution,
keep the non-`None` answers, return `None` when none parsed, else the majority
vote. -/
def get_final_decision (pred_solutions : List (List Char)) : Option (List Char) :=
  let pred_answers := pred_solutions.filterMap parse_answer_compare
  if pred_answers = [] then none else most_frequent_counter pred_answers

/-! ### The weighted voting block of `gsm/gen_math_critic_actor_3_7.py`
(lines 346-389, "Weighted Voting Algorithm (Conservative Strategy)")

Per agent the block reads the extracted answer and the list of rubric scores,
skips the sentinel `"Error"`, records `raw_scores_map[ans] =
max(raw_scores_map.get(ans, 0), raw_avg)`, drops the agent when
`raw_avg < score_threshold` (the safety gate), and otherwise adds
`math.exp(alpha * clamp(raw_avg / max_score))` to `unique_answers[ans]`.
The winner is `max(unique_answers, key=unique_answers.get)`; when
`unique_answers` is empty the fallback picks
`max(raw_scores_map, key=raw_scores_map.get)`, or `"Error"` when that too is
empty.  The transcendental `math.exp(alpha * _)` is kept abstract as a weight
function `w` (every statement below holds for an arbitrary `w`). -/

/-- The sentinel answer `"Error"` produced by `extract_boxed_answer`. -/
def errAnswer : List Char := ['E', 'r', 'r', 'o', 'r']

/-- Embedding of `np.mean(scores) if scores else 0.0`. -/
def rawAvg (scores : List ℚ) : ℚ :=
  if scores = [] then 0 else scores.sum / scores.length

/-- Embedding of `score_threshold = 4.0`. -/
def scoreThreshold : ℚ := 4

/-- Embedding of `raw_scores_map[ans] = max(raw_scores_map.get(ans, 0), raw_avg)` on an
insertion-ordered dict. -/
def upsertRawMax (m : List (List Char × ℚ)) (k : List Char) (v : ℚ) :
    List (List Char × ℚ) :=
  if m.any (fun p => p.1 = k) then
    m.map (fun p => if p.1 = k then (p.1, max p.2 v) else p)
  else m ++ [(k, max 0 v)]

/-- Embedding of `unique_answers[ans] = unique_answers.get(ans, 0) + weight` on an
insertion-ordered dict. -/
def addWeight (m : List (List Char × ℚ)) (k : List Char) (v : ℚ) :
    List (List Char × ℚ) :=
  if m.any (fun p => p.1 = k) then
    m.map (fun p => if p.1 = k then (p.1, p.2 + v) else p)
  else m ++ [(k, v)]

/-- The two dicts accumulated by the voting loop. -/
structure VoteState where
  unique : List (List Char × ℚ)
  raws : List (List Char × ℚ)
deriving Repr

/-- One iteration of the voting loop over agent `b = (answer, scores)`. -/
def voteStep (w : ℚ → ℚ) (st : VoteState) (b : List Char × List ℚ) : VoteState :=
  if b.1 = errAnswer then st
  else
    let raw := rawAvg b.2
    let raws' := upsertRawMax st.raws b.1 raw
    if raw < scoreThreshold then { st with raws := raws' }
    else
      { unique := addWeight st.unique b.1 (w (max 0 (min 1 (raw / 10)))),
        raws := raws' }

/-- The voting loop over all agents' (answer, scores) pairs. -/
def voteFold (w : ℚ → ℚ) (ballots : List (List Char × List ℚ)) : VoteState :=
  ballots.foldl (voteStep w) ⟨[], []⟩

/-- Embedding of `max(d, key=d.get)` on an insertion-ordered dict: the first key attaining
the maximal value (Python's `max` keeps the first maximal element). -/
def argmaxDict (m : List (List Char × ℚ)) : Option (List Char) :=
  match m with
  | [] => none
  | e :: rest => some (firstMaxBy (fun p => p.2) e rest).1

/-- The winner selection: the weighted argmax when any answer passed the
safety gate, else (fallback, with `fallback_triggered = True`) the answer of
highest recorded raw score, else the sentinel.  Returns
(`best_ans`, `fallback_triggered`). -/
def weightedVote (w : ℚ → ℚ) (ballots : List (List Char × List ℚ)) :
    List Char × Bool :=
  let st := voteFold w ballots
  match argmaxDict st.unique with
  | some a => (a, false)
  | none =>
    match argmaxDict st.raws with
    | some a => (a, true)
    | none => (errAnswer, true)

/-! ### The cross-run comparison of `gsm/compare_accuracies.py` (`main`,
lines 190-243) and `get_majority_error_data` (lines 132-151)

The loop over `common_questions = set(original) & set(critic)` reads only the
`is_correct` field of each result record, so the comparison core is embedded
over association lists from question to `is_correct`.  Python's set iteration
order is arbitrary; the embedded `commonQuestions` fixes one order, and every
property proved below (membership, emptiness, counts) is order-invariant. -/

/-- Dictionary lookup on an insertion-ordered association list. -/
def lookupVal {α : Type} (m : List (String × α)) (k : String) : Option α :=
  (m.find? (fun p => p.1 = k)).map (fun p => p.2)

/-- Embedding of `dict[k] = v` on an insertion-ordered association list: overwrite in place
or append. -/
def dictInsert {α : Type} (m : List (String × α)) (k : String) (v : α) :
    List (String × α) :=
  if m.any (fun p => p.1 = k) then
    m.map (fun p => if p.1 = k then (k, v) else p)
  else m ++ [(k, v)]

/-- Embedding of `list(set(original_keys) & set(critic_keys))`: the distinct keys of the
original run that also key the critic run. -/
def commonQuestions (original critic : List (String × Nat)) : List String :=
  (keysOf (original.map (fun p => p.1))).filter
    (fun q => critic.any (fun p => p.1 = q))

/-- The four evaluation categories accumulated by the comparison loop. -/
structure Cats where
  win : List String
  loss : List String
  correct : List String
  incorrect : List String
deriving Repr, DecidableEq

/-- One iteration of the categorization loop: `a_correct` from the original
run, `b_correct` from the critic run, appended to the branch its `(b, a)` pair
selects. -/
def categorizeStep (original critic : List (String × Nat)) (c : Cats) (q : String) :
    Cats :=
  let a := (lookupVal original q).getD 0
  let b := (lookupVal critic q).getD 0
  if b = 1 ∧ a = 0 then { c with win := c.win ++ [q] }
  else if b = 0 ∧ a = 1 then { c with loss := c.loss ++ [q] }
  else if b = 1 ∧ a = 1 then { c with correct := c.correct ++ [q] }
  else if b = 0 ∧ a = 0 then { c with incorrect := c.incorrect ++ [q] }
  else c

/-- The categorization loop over the common questions. -/
def categorize (original critic : List (String × Nat)) : Cats :=
  (commonQuestions original critic).foldl (categorizeStep original critic)
    ⟨[], [], [], []⟩

/-- The counts printed by the terminal summary and written to the report:
total compared questions and the four category counts. -/
structure Report where
  total : Nat
  win : Nat
  loss : Nat
  correct : Nat
  incorrect : Nat
deriving Repr, DecidableEq

/-- The report counts computed by `main` from the two runs (lines 236-243). -/
def makeReport (original critic : List (String × Nat)) : Report :=
  let cs := categorize original critic
  { total := (commonQuestions original critic).length
    win := cs.win.length
    loss := cs.loss.length
    correct := cs.correct.length
    incorrect := cs.incorrect.length }

/-- Embedding of `acc_original = (len(loss) + len(correct)) / total * 100 if total > 0 else 0`
(line 240), as an exact rational. -/
def accOriginalOf (r : Report) : ℚ :=
  if 0 < r.total then ((r.loss : ℚ) + r.correct) / r.total * 100 else 0

/-- Embedding of `acc_critic = (len(win) + len(correct)) / total * 100 if total > 0 else 0`
(line 241), as an exact rational. -/
def accCriticOf (r : Report) : ℚ :=
  if 0 < r.total then ((r.win : ℚ) + r.correct) / r.total * 100 else 0

/-- One record of `gsm_majority_error.jsonl` as read by
`get_majority_error_data`. -/
structure MEItem where
  question : String
  answer : List Char

/-- The per-question record built by `get_majority_error_data`. -/
structure MERecord where
  gt_answer : Option (List Char)
  final_decision : Option (List Char)
  is_correct : Nat

/-- Embedding of `get_majority_error_data` of `gsm/compare_accuracies.py`: for every item a
record with the parsed ground truth, `final_decision = None` and
`is_correct = 0` ("Always wrong for this dataset"), keyed by question. -/
def get_majority_error_data (items : List MEItem) : List (String × MERecord) :=
  items.foldl
    (fun m it =>
      dictInsert m it.question
        ⟨get_ground_truth it.answer, none, 0⟩)
    []

/-- Projection of a result dict to the `is_correct` field read by the
comparison loop. -/
def isCorrectMap (m : List (String × MERecord)) : List (String × Nat) :=
  m.map (fun p => (p.1, p.2.is_correct))

/-! ### Control flow of the `__main__` driver of
`gsm/gen_math_critic_actor_3_7.py` (C9)

`call_openai_api` wraps the external call in `try/except`, printing and
returning the empty string on any exception, so no failure propagates out of
it.  The driver loop accumulates `results[question]` for each question and
performs a single `json.dump` after the loop (lines 401-403); nothing is
written to disk inside the loop. -/

/-- Embedding of `call_openai_api`: the completion of the external service, or `""` when
the call raised. -/
def call_openai_api (completion : Except String String) : String :=
  match completion with
  | .ok s => s
  | .error _ => ""

/-- Observable effects of the driver: finishing the in-memory processing of
one question, or writing the accumulated results (their count) to disk. -/
inductive RunEffect
  | processed (q : String)
  | save (resultCount : Nat)
deriving DecidableEq, Repr

/-- Whether an effect is a durable write. -/
def isSave : RunEffect → Bool
  | .save _ => true
  | _ => false

/-- The effect trace of a completed run: every question is processed in order,
then the single `json.dump` of the whole `results` dict. -/
def runDriver (qs : List String) : List RunEffect :=
  qs.map RunEffect.processed ++ [RunEffect.save qs.length]

/-- The effects emitted before the run reaches question index `k` (the trace
visible when the run crashes there). -/
def runEffectsBefore (qs : List String) (k : Nat) : List RunEffect :=
  (qs.take k).map RunEffect.processed

/-- Whether `####` occurs anywhere in the string. -/
def containsHash4 : List Char → Bool
  | [] => false
  | c :: t => decide ((c :: t).take 4 = hashChars) || containsHash4 t

/-! ### Theorems -/

theorem firstMaxBy_spec {α β : Type} [LinearOrder β] (f : α → β) (l : List α) :
    ∀ a : α,
      (firstMaxBy f a l = a ∧ ∀ y ∈ l, f y ≤ f a) ∨
      (∃ l1 l2, l = l1 ++ firstMaxBy f a l :: l2 ∧ f a < f (firstMaxBy f a l) ∧
        (∀ y ∈ l1, f y < f (firstMaxBy f a l)) ∧
        (∀ y ∈ l2, f y ≤ f (firstMaxBy f a l))) := by
  induction l with
  | nil => intro a; exact Or.inl ⟨rfl, by simp⟩
  | cons y t ih =>
    intro a
    simp only [firstMaxBy]
    by_cases h : f a < f y
    · rw [if_pos h]
      rcases ih y with ⟨heq, hall⟩ | ⟨l1, l2, hsplit, hlt, h1, h2⟩
      · refine Or.inr ⟨[], t, by simp [heq], ?_, by simp, ?_⟩
        · rw [heq]; exact h
        · intro z hz; rw [heq]; exact hall z hz
      · refine Or.inr ⟨y :: l1, l2, by rw [List.cons_append, ← hsplit], h.trans hlt, ?_, h2⟩
        intro z hz
        rcases List.mem_cons.mp hz with rfl | hz'
        · exact hlt
        · exact h1 z hz'
    · rw [if_neg h]
      rcases ih a with ⟨heq, hall⟩ | ⟨l1, l2, hsplit, hlt, h1, h2⟩
      · refine Or.inl ⟨heq, ?_⟩
        intro z hz
        rcases List.mem_cons.mp hz with rfl | hz'
        · exact le_of_not_lt h
        · exact hall z hz'
      · refine Or.inr ⟨y :: l1, l2, by rw [List.cons_append, ← hsplit], hlt, ?_, h2⟩
        intro z hz
        rcases List.mem_cons.mp hz with rfl | hz'
        · exact lt_of_le_of_lt (le_of_not_lt h) hlt
        · exact h1 z hz'

theorem keysAux_mem_of_mem {α : Type} [DecidableEq α] (l : List α) :
    ∀ acc x, (x ∈ acc ∨ x ∈ l) → x ∈ keysAux acc l := by
  induction l with
  | nil => intro acc x h; simpa [keysAux] using h.resolve_right (by simp)
  | cons y t ih =>
    intro acc x h
    simp only [keysAux]
    by_cases hy : y ∈ acc
    · rw [if_pos hy]
      apply ih
      rcases h with h | h
      · exact Or.inl h
      · rcases List.mem_cons.mp h with rfl | h'
        · exact Or.inl hy
        · exact Or.inr h'
    · rw [if_neg hy]
      apply ih
      rcases h with h | h
      · exact Or.inl (List.mem_append_left _ h)
      · rcases List.mem_cons.mp h with rfl | h'
        · exact Or.inl (List.mem_append_right _ (by simp))
        · exact Or.inr h'

theorem keysAux_sound {α : Type} [DecidableEq α] (l : List α) :
    ∀ acc x, x ∈ keysAux acc l → x ∈ acc ∨ x ∈ l := by
  induction l with
  | nil => intro acc x h; exact Or.inl (by simpa [keysAux] using h)
  | cons y t ih =>
    intro acc x h
    simp only [keysAux] at h
    by_cases hy : y ∈ acc
    · rw [if_pos hy] at h
      rcases ih _ x h with h' | h'
      · exact Or.inl h'
      · exact Or.inr (List.mem_cons_of_mem _ h')
    · rw [if_neg hy] at h
      rcases ih _ x h with h' | h'
      · rcases List.mem_append.mp h' with h'' | h''
        · exact Or.inl h''
        · exact Or.inr (by simp at h''; simp [h''])
      · exact Or.inr (List.mem_cons_of_mem _ h')

theorem keysAux_extends {α : Type} [DecidableEq α] (l : List α) :
    ∀ acc, ∃ e, keysAux acc l = acc ++ e := by
  induction l with
  | nil => intro acc; exact ⟨[], by simp [keysAux]⟩
  | cons y t ih =>
    intro acc
    simp only [keysAux]
    by_cases hy : y ∈ acc
    · rw [if_pos hy]; exact ih acc
    · rw [if_neg hy]
      obtain ⟨e, he⟩ := ih (acc ++ [y])
      exact ⟨y :: e, by simp [he]⟩

theorem mem_left_of_append_eq {α : Type} {acc e K1 K2 : List α} {m x : α}
    (h : acc ++ e = K1 ++ m :: K2) (hx : x ∈ acc) (hm : m ∉ acc) : x ∈ K1 := by
  rcases List.append_eq_append_iff.mp h with ⟨w, hw1, _⟩ | ⟨w, hw1, hw2⟩
  · rw [hw1]; exact List.mem_append_left _ hx
  · rcases w with _ | ⟨z, w'⟩
    · rw [hw1, List.append_nil] at hx; exact hx
    · have hz : z = m := (List.cons.injEq _ _ _ _ ▸ hw2.symm).1
      exact absurd (by rw [hw1, hz]; exact List.mem_append_right _ (by simp) : m ∈ acc) hm

/-- Splitting the first-occurrence key list around a key `m` yields a split of
the scanned list around (the first occurrence of) `m` in which everything
before `m` is an earlier key. -/
theorem keysAux_split {α : Type} [DecidableEq α] (l : List α) :
    ∀ acc K1 K2 (m : α), keysAux acc l = K1 ++ m :: K2 →
      (∃ A2, acc = K1 ++ m :: A2) ∨
      (∃ l1 l2, l = l1 ++ m :: l2 ∧ (∀ y ∈ l1, y ∈ K1) ∧ m ∉ acc) := by
  induction l with
  | nil =>
    intro acc K1 K2 m h
    exact Or.inl ⟨K2, by simpa [keysAux] using h⟩
  | cons x t ih =>
    intro acc K1 K2 m h
    simp only [keysAux] at h
    by_cases hx : x ∈ acc
    · rw [if_pos hx] at h
      rcases ih _ _ _ _ h with ⟨A2, hA⟩ | ⟨l1, l2, hsp, hpre, hnm⟩
      · exact Or.inl ⟨A2, hA⟩
      · refine Or.inr ⟨x :: l1, l2, by rw [List.cons_append, ← hsp], ?_, hnm⟩
        intro y hy
        rcases List.mem_cons.mp hy with rfl | hy'
        · obtain ⟨e, he⟩ := keysAux_extends (α := α) t acc
          rw [he] at h
          exact mem_left_of_append_eq h hx hnm
        · exact hpre y hy'
    · rw [if_neg hx] at h
      rcases ih _ _ _ _ h with ⟨A2, hA⟩ | ⟨l1, l2, hsp, hpre, hnm⟩
      · rcases A2.eq_nil_or_concat with rfl | ⟨A2', a, rfl⟩
        · have h2 : acc = K1 ∧ [x] = [m] :=
            List.append_inj' (by simpa using hA) (by simp)
          have hxm : x = m := by simpa using h2.2
          exact Or.inr ⟨[], t, by simp [hxm], by simp, hxm ▸ hx⟩
        · have h2 : acc = K1 ++ m :: A2' ∧ [x] = [a] :=
            List.append_inj' (by simpa [List.append_assoc] using hA) (by simp)
          exact Or.inl ⟨A2', h2.1⟩
      · refine Or.inr ⟨x :: l1, l2, by rw [List.cons_append, ← hsp], ?_, fun hc => hnm (List.mem_append_left _ hc)⟩
        intro z hz
        rcases List.mem_cons.mp hz with heq | hz'
        · obtain ⟨e, he⟩ := keysAux_extends (α := α) t (acc ++ [x])
          rw [he] at h
          rw [heq]
          exact mem_left_of_append_eq h (List.mem_append_right _ (by simp)) hnm
        · exact hpre z hz'

theorem foldl_count_firstMaxBy {α β : Type} [LinearOrder β] (f : α → β) (t : List α) :
    ∀ b, t.foldl (fun acc i => if acc.1 < f i then (f i, i) else acc) (f b, b)
      = (f (firstMaxBy f b t), firstMaxBy f b t) := by
  induction t with
  | nil => intro b; simp [firstMaxBy]
  | cons y t ih =>
    intro b
    simp only [List.foldl_cons, firstMaxBy]
    by_cases h : f b < f y
    · rw [if_pos h, if_pos h]; exact ih y
    · rw [if_neg h, if_neg h]; exact ih b

theorem most_frequent_legacy_cons (x : List Char) (t : List (List Char)) :
    most_frequent_legacy (x :: t) =
      some (firstMaxBy (fun y => (x :: t).count y) x t) := by
  have hpos : (0 : Nat) < (x :: t).count x := by
    rw [List.count_cons_self]; exact Nat.succ_pos _
  simp only [most_frequent_legacy, List.foldl_cons]
  rw [if_pos hpos]
  rw [foldl_count_firstMaxBy (fun y => (x :: t).count y) t x]

/-- C1: both unweighted aggregators (`most_frequent` of
`gsm/legacy/eval_math_critic_actor.py` and the `Counter`-based `most_frequent`
of `gsm/compare_accuracies.py`) return an answer of maximal occurrence count,
and on ties the answer whose first occurrence comes earliest wins: everything
strictly before the winner's first occurrence has a strictly smaller count. -/
theorem C1_unweighted_majority (l : List (List Char)) (m : List Char)
    (h : most_frequent_legacy l = some m ∨ most_frequent_counter l = some m) :
    (∀ y ∈ l, l.count y ≤ l.count m) ∧
    ∃ l1 l2, l = l1 ++ m :: l2 ∧ ∀ y ∈ l1, l.count y < l.count m := by
  rcases h with h | h
  · -- legacy loop implementation
    match l with
    | [] => simp [most_frequent_legacy] at h
    | x :: t =>
      rw [most_frequent_legacy_cons, Option.some.injEq] at h
      subst h
      rcases firstMaxBy_spec (fun y => (x :: t).count y) t x with ⟨heq, hall⟩ |
        ⟨l1, l2, hsp, hlt, h1, h2⟩
      · rw [heq]
        constructor
        · intro y hy
          rcases List.mem_cons.mp hy with rfl | hy'
          · exact le_refl _
          · exact hall y hy'
        · exact ⟨[], t, rfl, by simp⟩
      · set r := firstMaxBy (fun y => (x :: t).count y) x t with hr
        constructor
        · intro y hy
          rcases List.mem_cons.mp hy with rfl | hy'
          · exact le_of_lt hlt
          · rw [hsp] at hy'
            rcases List.mem_append.mp hy' with hy1 | hy2
            · exact le_of_lt (h1 y hy1)
            · rcases List.mem_cons.mp hy2 with rfl | hy3
              · exact le_refl _
              · exact h2 y hy3
        · refine ⟨x :: l1, l2, by rw [hsp, List.cons_append], ?_⟩
          intro y hy
          rcases List.mem_cons.mp hy with rfl | hy'
          · exact hlt
          · exact h1 y hy'
  · -- Counter implementation
    match l with
    | [] => simp [most_frequent_counter] at h
    | x :: t =>
      have hmem : ∀ y ∈ (x :: t : List (List Char)), y ∈ keysOf (x :: t) :=
        fun y hy => keysAux_mem_of_mem _ _ _ (Or.inr hy)
      rcases hk : keysOf (x :: t) with _ | ⟨k, ks⟩
      · exact absurd (hk ▸ hmem x (by simp)) (by simp)
      · rw [most_frequent_counter, if_neg (by simp), hk, Option.some.injEq] at h
        subst h
        rcases firstMaxBy_spec (fun y => (x :: t).count y) ks k with ⟨heq, hall⟩ |
          ⟨E1, E2, hsp, hlt, h1, h2⟩
        · rw [heq]
          constructor
          · intro y hy
            have := hmem y hy
            rw [hk] at this
            rcases List.mem_cons.mp this with rfl | hy'
            · exact le_refl _
            · exact hall y hy'
          · have hsplit := keysAux_split (x :: t) [] [] ks k (by simpa using hk)
            rcases hsplit with ⟨A2, hA⟩ | ⟨l1, l2, hsp, hpre, _⟩
            · simp at hA
            · exact ⟨l1, l2, hsp, fun y hy => absurd (hpre y hy) (by simp)⟩
        · set r := firstMaxBy (fun y => (x :: t).count y) k ks with hr
          have hk2 : keysOf (x :: t) = (k :: E1) ++ r :: E2 := by
            rw [hk, hsp, List.cons_append]
          constructor
          · intro y hy
            have := hmem y hy
            rw [hk2] at this
            rcases List.mem_append.mp this with hy1 | hy2
            · rcases List.mem_cons.mp hy1 with rfl | hy1'
              · exact le_of_lt hlt
              · exact le_of_lt (h1 y hy1')
            · rcases List.mem_cons.mp hy2 with rfl | hy3
              · exact le_refl _
              · exact h2 y hy3
          · have hsplit := keysAux_split (x :: t) [] (k :: E1) E2 r (by simpa using hk2)
            rcases hsplit with ⟨A2, hA⟩ | ⟨l1, l2, hsp2, hpre, _⟩
            · simp at hA
            · refine ⟨l1, l2, hsp2, ?_⟩
              intro y hy
              rcases List.mem_cons.mp (hpre y hy) with rfl | hy'
              · exact hlt
              · exact h1 y hy'

/-- Witness for C1: on the documented ballot answers `["5", "5", "7"]`, both
aggregators elect `"5"`, which has maximal count and earliest first occurrence. -/
theorem C1_unweighted_majority_witness :
    most_frequent_legacy [['5'], ['5'], ['7']] = some ['5'] ∧
    most_frequent_counter [['5'], ['5'], ['7']] = some ['5'] ∧
    ((∀ y ∈ [[('5' : Char)], ['5'], ['7']],
        [[('5' : Char)], ['5'], ['7']].count y ≤ [[('5' : Char)], ['5'], ['7']].count ['5']) ∧
      ∃ l1 l2, [[('5' : Char)], ['5'], ['7']] = l1 ++ ['5'] :: l2 ∧
        ∀ y ∈ l1, [[('5' : Char)], ['5'], ['7']].count y < [[('5' : Char)], ['5'], ['7']].count ['5']) :=
  ⟨by decide, by decide, C1_unweighted_majority _ _ (Or.inl (by decide))⟩

/-- C4: the code disagrees with the documented behaviour.  `get_ground_truth`
extracts `"1"` from `"#### 1,200"` (the regex `#### (\d+\.?\d*)` stops at the
comma), so the Scorer declares GroundTruth `"#### 1,200"` and Decision
`"1200"` unequal (`check_correctness = 0`), even though `check_correctness`
itself is comma-insensitive when the commas reach it (third conjunct). -/
theorem C4_comma_ground_truth_bug :
    get_ground_truth ("#### 1,200".toList) = some ("1".toList) ∧
    check_correctness (get_ground_truth ("#### 1,200".toList)) (some ("1200".toList)) = 0 ∧
    check_correctness (some ("1,200".toList)) (some ("1200".toList)) = 1 := by
  refine ⟨by decide, by decide, by decide⟩

/-- C7: the Aggregator of `gsm/compare_accuracies.py` maps the empty ballot
list to `None` with an empty tally, and more generally maps any solution list
in which no ballot parses to `None`. -/
theorem C7_empty_ballots :
    get_final_decision [] = none ∧ most_frequent_counter [] = none ∧
    counterOf [] = [] ∧
    ∀ sols, (∀ s ∈ sols, parse_answer_compare s = none) →
      get_final_decision sols = none := by
  refine ⟨rfl, rfl, rfl, ?_⟩
  intro sols h
  have hnil : sols.filterMap parse_answer_compare = [] := by
    induction sols with
    | nil => rfl
    | cons s t ih =>
      rw [List.filterMap_cons, h s (by simp)]
      exact ih (fun x hx => h x (List.mem_cons_of_mem _ hx))
  simp [get_final_decision, hnil]

/-- Witness for C7: a ballot list whose entries carry no parseable answer
(the empty response and a digit-free response) yields `None`. -/
theorem C7_empty_ballots_witness :
    get_final_decision ["".toList, "no digits here".toList] = none :=
  C7_empty_ballots.2.2.2 ["".toList, "no digits here".toList] (by decide)

/-- C9 counterexample: an external-call failure does not propagate at all
(`call_openai_api` returns `""`), and in a two-question run the effect trace
before the second question contains no durable write — nothing has been
flushed when a failure occurs there, contradicting the claimed
flush-before-propagation. -/
theorem C9_no_flush_before_failure :
    call_openai_api (Except.error "APIConnectionError") = "" ∧
    runEffectsBefore ["q1", "q2"] 1 = [RunEffect.processed "q1"] ∧
    (runEffectsBefore ["q1", "q2"] 1).countP isSave = 0 ∧
    runDriver ["q1", "q2"] =
      [RunEffect.processed "q1", RunEffect.processed "q2", RunEffect.save 2] := by
  refine ⟨rfl, by decide, by decide, by decide⟩

/-- C9 (amended): external-call failures are swallowed (`""` is returned and
no exception propagates), and the driver performs exactly one durable write,
after the whole loop; no prefix of the run contains any write, so a crash
before completion loses every accumulated result. -/
theorem C9_single_final_save (qs : List String) (k : Nat) :
    (runEffectsBefore qs k).countP isSave = 0 ∧
    (runDriver qs).countP isSave = 1 ∧
    ∀ msg : String, call_openai_api (Except.error msg) = "" := by
  have hmap : ∀ l : List String, (l.map RunEffect.processed).countP isSave = 0 := by
    intro l
    induction l with
    | nil => rfl
    | cons x t ih => simp [List.countP_cons, isSave, ih]
  refine ⟨hmap _, ?_, fun _ => rfl⟩
  simp only [runDriver, List.countP_append, hmap]
  rfl

/-- The integer-cleared `npIsClose` test coincides with the textbook
`np.isclose` inequality `|a - b| <= atol + rtol * |b|` on the denoted decimal
values. -/
theorem npIsClose_iff (m1 m2 : Int) (e1 e2 : Nat) :
    npIsClose (m1, e1) (m2, e2) = true ↔
      |decValue (m1, e1) - decValue (m2, e2)| ≤
        1 / 100000000 + 1 / 100000 * |decValue (m2, e2)| := by
  have hK : (0:ℚ) < 10 ^ e1 * 10 ^ e2 * 10 ^ 8 := by positivity
  have hCA : |decValue (m1, e1) - decValue (m2, e2)| * (10 ^ e1 * 10 ^ e2 * 10 ^ 8)
      = (((m1 * 10 ^ e2 - m2 * 10 ^ e1).natAbs * 10 ^ 8 : ℕ) : ℚ) := by
    push_cast [Int.cast_natAbs]
    rw [← abs_of_pos hK, ← abs_mul]
    rw [show ((100000000 : ℚ)) = |(100000000 : ℚ)| from (abs_of_pos (by norm_num)).symm,
       ← abs_mul]
    congr 1
    simp only [decValue]
    field_simp
    ring
  have hDB : (1 / 100000000 + 1 / 100000 * |decValue (m2, e2)|) * (10 ^ e1 * 10 ^ e2 * 10 ^ 8)
      = ((10 ^ (e1 + e2) + m2.natAbs * 10 ^ (e1 + 3) : ℕ) : ℚ) := by
    push_cast [Int.cast_natAbs]
    simp only [decValue]
    rw [abs_div, abs_of_pos (by positivity : (0:ℚ) < 10 ^ e2)]
    field_simp
    ring
  rw [npIsClose, decide_eq_true_iff, ← Nat.cast_le (α := ℚ), ← hCA, ← hDB]
  exact mul_le_mul_right hK

theorem dictInsert_mem {α : Type} {m : List (String × α)} {k : String} {v : α}
    {p : String × α} (h : p ∈ dictInsert m k v) : p ∈ m ∨ p = (k, v) := by
  rw [dictInsert] at h
  by_cases hc : m.any (fun p => p.1 = k)
  · rw [if_pos hc] at h
    obtain ⟨q, hq, hqe⟩ := List.mem_map.mp h
    by_cases hqk : q.1 = k
    · right; rw [← hqe]; simp [hqk]
    · left; rw [← hqe]; simpa [hqk] using hq
  · rw [if_neg hc] at h
    rcases List.mem_append.mp h with h' | h'
    · exact Or.inl h'
    · right; simpa using h'

theorem get_majority_error_data_zero (items : List MEItem) :
    ∀ p ∈ get_majority_error_data items,
      p.2.is_correct = 0 ∧ p.2.final_decision = none := by
  rw [get_majority_error_data]
  have key : ∀ (its : List MEItem) (m0 : List (String × MERecord)),
      (∀ p ∈ m0, p.2.is_correct = 0 ∧ p.2.final_decision = none) →
      ∀ p ∈ its.foldl
          (fun m it => dictInsert m it.question ⟨get_ground_truth it.answer, none, 0⟩) m0,
        p.2.is_correct = 0 ∧ p.2.final_decision = none := by
    intro its
    induction its with
    | nil => intro m0 h0 p hp; exact h0 p hp
    | cons it t ih =>
      intro m0 h0 p hp
      rw [List.foldl_cons] at hp
      refine ih _ ?_ p hp
      intro q hq
      rcases dictInsert_mem hq with hq' | hq'
      · exact h0 q hq'
      · rw [hq']; exact ⟨rfl, rfl⟩
  exact key items [] (by simp)

theorem lookupVal_getD_zero {m : List (String × Nat)}
    (h : ∀ p ∈ m, p.2 = 0) (q : String) : (lookupVal m q).getD 0 = 0 := by
  rw [lookupVal]
  rcases hf : m.find? (fun p => p.1 = q) with _ | p
  · rw [hf]; rfl
  · rw [hf]
    simpa using h p (List.mem_of_find?_eq_some hf)

/-- Componentwise characterization of the categorization loop: each category
collects exactly the questions whose `(b_correct, a_correct)` pair selects its
branch, in scan order. -/
theorem categorize_foldl (original critic : List (String × Nat)) (Q : List String) :
    ∀ c : Cats,
      Q.foldl (categorizeStep original critic) c =
        ⟨c.win ++ Q.filter (fun q => decide ((lookupVal critic q).getD 0 = 1 ∧ (lookupVal original q).getD 0 = 0)),
         c.loss ++ Q.filter (fun q => decide ((lookupVal critic q).getD 0 = 0 ∧ (lookupVal original q).getD 0 = 1)),
         c.correct ++ Q.filter (fun q => decide ((lookupVal critic q).getD 0 = 1 ∧ (lookupVal original q).getD 0 = 1)),
         c.incorrect ++ Q.filter (fun q => decide ((lookupVal critic q).getD 0 = 0 ∧ (lookupVal original q).getD 0 = 0))⟩ := by
  induction Q with
  | nil => intro c; simp
  | cons q Q ih =>
    intro c
    rw [List.foldl_cons, ih]
    by_cases h1 : (lookupVal critic q).getD 0 = 1 ∧ (lookupVal original q).getD 0 = 0
    · simp [categorizeStep, h1.1, h1.2, List.filter_cons]
    · by_cases h2 : (lookupVal critic q).getD 0 = 0 ∧ (lookupVal original q).getD 0 = 1
      · rw [show categorizeStep original critic c q = { c with loss := c.loss ++ [q] } by
          simp [categorizeStep, h2.1, h2.2]]
        simp [List.filter_cons, h2.1, h2.2]
      · by_cases h3 : (lookupVal critic q).getD 0 = 1 ∧ (lookupVal original q).getD 0 = 1
        · rw [show categorizeStep original critic c q = { c with correct := c.correct ++ [q] } by
            simp [categorizeStep, h3.1, h3.2]]
          simp [List.filter_cons, h3.1, h3.2]
        · by_cases h4 : (lookupVal critic q).getD 0 = 0 ∧ (lookupVal original q).getD 0 = 0
          · rw [show categorizeStep original critic c q = { c with incorrect := c.incorrect ++ [q] } by
              simp [categorizeStep, h4.1, h4.2, h1, h2, h3]]
            simp [List.filter_cons, h4.1, h4.2]
          · rw [show categorizeStep original critic c q = c by
              simp [categorizeStep, h1, h2, h3, h4]]
            simp [List.filter_cons, h1, h2, h3, h4]

theorem lookupVal_getD_mem01 {m : List (String × Nat)}
    (h : ∀ p ∈ m, p.2 = 0 ∨ p.2 = 1) (q : String) :
    (lookupVal m q).getD 0 = 0 ∨ (lookupVal m q).getD 0 = 1 := by
  rw [lookupVal]
  rcases hf : m.find? (fun p => p.1 = q) with _ | p
  · rw [hf]; exact Or.inl rfl
  · rw [hf]; simpa using h p (List.mem_of_find?_eq_some hf)

/-- C10: every baseline record produced by `get_majority_error_data` carries
`is_correct = 0` and `final_decision = None`; consequently, whatever the critic
run contains, the `loss` and `correct` categories of the comparison are empty
and the reported baseline accuracy is `0`. -/
theorem C10_baseline_always_incorrect (items : List MEItem)
    (critic : List (String × Nat)) :
    (∀ p ∈ get_majority_error_data items,
        p.2.is_correct = 0 ∧ p.2.final_decision = none) ∧
    (categorize (isCorrectMap (get_majority_error_data items)) critic).loss = [] ∧
    (categorize (isCorrectMap (get_majority_error_data items)) critic).correct = [] ∧
    accOriginalOf (makeReport (isCorrectMap (get_majority_error_data items)) critic) = 0 := by
  have hz : ∀ p ∈ isCorrectMap (get_majority_error_data items), p.2 = 0 := by
    intro p hp
    obtain ⟨r, hr, hre⟩ := List.mem_map.mp hp
    rw [← hre]
    exact (get_majority_error_data_zero items r hr).1
  have ha : ∀ q, (lookupVal (isCorrectMap (get_majority_error_data items)) q).getD 0 = 0 :=
    fun q => lookupVal_getD_zero hz q
  have hloss : (categorize (isCorrectMap (get_majority_error_data items)) critic).loss = [] := by
    rw [categorize, categorize_foldl]
    simp only [List.nil_append]
    rw [List.filter_eq_nil_iff]
    intro q _
    simp [ha q]
  have hcor : (categorize (isCorrectMap (get_majority_error_data items)) critic).correct = [] := by
    rw [categorize, categorize_foldl]
    simp only [List.nil_append]
    rw [List.filter_eq_nil_iff]
    intro q _
    simp [ha q]
  refine ⟨get_majority_error_data_zero items, hloss, hcor, ?_⟩
  rw [accOriginalOf]
  have h1 : (makeReport (isCorrectMap (get_majority_error_data items)) critic).loss = 0 := by
    simp [makeReport, hloss]
  have h2 : (makeReport (isCorrectMap (get_majority_error_data items)) critic).correct = 0 := by
    simp [makeReport, hcor]
  rw [h1, h2]
  by_cases hn : 0 < (makeReport (isCorrectMap (get_majority_error_data items)) critic).total
  · rw [if_pos hn]; norm_num
  · rw [if_neg hn]

/-- C8 (amended): the comparison loop runs over the explicit intersection of
the two key sets; every categorized question belongs to that intersection (so
a question present in only one run lands in no category); and for every common
question, given that both `is_correct` fields are 0/1-valued, the question
lands in at least one category, membership in each category is exactly its
`(b_correct, a_correct)` branch condition — in particular baseline-correct and
critic-incorrect is `loss` and nothing else.  (No separate count of the
excluded questions is produced: see the counterexample theorem.) -/
theorem C8_partition_intersection (original critic : List (String × Nat))
    (h1 : ∀ p ∈ original, p.2 = 0 ∨ p.2 = 1)
    (h2 : ∀ p ∈ critic, p.2 = 0 ∨ p.2 = 1) :
    ∀ q : String,
      ((q ∈ (categorize original critic).win ∨ q ∈ (categorize original critic).loss ∨
        q ∈ (categorize original critic).correct ∨ q ∈ (categorize original critic).incorrect) →
          q ∈ commonQuestions original critic ∧
          (∃ v, (q, v) ∈ original) ∧ (∃ v, (q, v) ∈ critic)) ∧
      (q ∈ commonQuestions original critic →
        (q ∈ (categorize original critic).win ∨ q ∈ (categorize original critic).loss ∨
         q ∈ (categorize original critic).correct ∨ q ∈ (categorize original critic).incorrect) ∧
        (q ∈ (categorize original critic).win ↔
          ((lookupVal critic q).getD 0 = 1 ∧ (lookupVal original q).getD 0 = 0)) ∧
        (q ∈ (categorize original critic).loss ↔
          ((lookupVal critic q).getD 0 = 0 ∧ (lookupVal original q).getD 0 = 1)) ∧
        (q ∈ (categorize original critic).correct ↔
          ((lookupVal critic q).getD 0 = 1 ∧ (lookupVal original q).getD 0 = 1)) ∧
        (q ∈ (categorize original critic).incorrect ↔
          ((lookupVal critic q).getD 0 = 0 ∧ (lookupVal original q).getD 0 = 0))) := by
  intro q
  have hcat := categorize_foldl original critic (commonQuestions original critic) ⟨[], [], [], []⟩
  rw [categorize, hcat]
  simp only [List.nil_append]
  have hwin : q ∈ (commonQuestions original critic).filter
        (fun q => decide ((lookupVal critic q).getD 0 = 1 ∧ (lookupVal original q).getD 0 = 0)) ↔
      q ∈ commonQuestions original critic ∧
        ((lookupVal critic q).getD 0 = 1 ∧ (lookupVal original q).getD 0 = 0) := by
    rw [List.mem_filter]; simp
  have hlossm : q ∈ (commonQuestions original critic).filter
        (fun q => decide ((lookupVal critic q).getD 0 = 0 ∧ (lookupVal original q).getD 0 = 1)) ↔
      q ∈ commonQuestions original critic ∧
        ((lookupVal critic q).getD 0 = 0 ∧ (lookupVal original q).getD 0 = 1) := by
    rw [List.mem_filter]; simp
  have hcorm : q ∈ (commonQuestions original critic).filter
        (fun q => decide ((lookupVal critic q).getD 0 = 1 ∧ (lookupVal original q).getD 0 = 1)) ↔
      q ∈ commonQuestions original critic ∧
        ((lookupVal critic q).getD 0 = 1 ∧ (lookupVal original q).getD 0 = 1) := by
    rw [List.mem_filter]; simp
  have hincm : q ∈ (commonQuestions original critic).filter
        (fun q => decide ((lookupVal critic q).getD 0 = 0 ∧ (lookupVal original q).getD 0 = 0)) ↔
      q ∈ commonQuestions original critic ∧
        ((lookupVal critic q).getD 0 = 0 ∧ (lookupVal original q).getD 0 = 0) := by
    rw [List.mem_filter]; simp
  constructor
  · intro hmem
    have hq : q ∈ commonQuestions original critic := by
      rcases hmem with h | h | h | h
      · exact (hwin.mp h).1
      · exact (hlossm.mp h).1
      · exact (hcorm.mp h).1
      · exact (hincm.mp h).1
    refine ⟨hq, ?_, ?_⟩
    · have hk : q ∈ keysOf (original.map (fun p => p.1)) := (List.mem_filter.mp hq).1
      rw [keysOf] at hk
      have := keysAux_sound (original.map (fun p => p.1)) [] q hk
      rcases this with h' | h'
      · simp at h'
      · obtain ⟨p, hp, hpe⟩ := List.mem_map.mp h'
        exact ⟨p.2, by rw [← hpe]; exact hp⟩
    · have hany := (List.mem_filter.mp hq).2
      obtain ⟨p, hp, hpe⟩ := List.any_eq_true.mp hany
      exact ⟨p.2, by rw [← (by simpa using hpe : p.1 = q)]; exact hp⟩
  · intro hq
    refine ⟨?_, hwin.trans (by simp [hq]), hlossm.trans (by simp [hq]),
      hcorm.trans (by simp [hq]), hincm.trans (by simp [hq])⟩
    rcases lookupVal_getD_mem01 h2 q with hb | hb <;>
      rcases lookupVal_getD_mem01 h1 q with ha | ha
    · exact Or.inr (Or.inr (Or.inr (hincm.mpr ⟨hq, hb, ha⟩)))
    · exact Or.inr (Or.inl (hlossm.mpr ⟨hq, hb, ha⟩))
    · exact Or.inl (hwin.mpr ⟨hq, hb, ha⟩)
    · exact Or.inr (Or.inr (Or.inl (hcorm.mpr ⟨hq, hb, ha⟩)))

/-- Witness for C8: on runs where the baseline is correct on `"a"` and the
critic is not, the comparison classifies `"a"` as `loss` and nothing else. -/
theorem C8_partition_intersection_witness :
    "a" ∈ (categorize [("a", 1), ("b", 0)] [("a", 0), ("c", 1)]).loss ∧
    "a" ∉ (categorize [("a", 1), ("b", 0)] [("a", 0), ("c", 1)]).win ∧
    "a" ∉ (categorize [("a", 1), ("b", 0)] [("a", 0), ("c", 1)]).correct ∧
    "a" ∉ (categorize [("a", 1), ("b", 0)] [("a", 0), ("c", 1)]).incorrect := by
  have h := C8_partition_intersection [("a", 1), ("b", 0)] [("a", 0), ("c", 1)]
    (by decide) (by decide) "a"
  have hc := h.2 (by decide)
  refine ⟨hc.2.2.1.mpr (by decide), ?_, ?_, ?_⟩
  · intro hm
    have := hc.2.1.mp hm
    revert this; decide
  · intro hm
    have := hc.2.2.2.1.mp hm
    revert this; decide
  · intro hm
    have := hc.2.2.2.2.mp hm
    revert this; decide

/-- C8 counterexample to "counted separately for reporting": adding to the
baseline run a question absent from the critic run changes nothing in the
report — none of the reported numbers counts the excluded questions. -/
theorem C8_no_separate_count_reported :
    makeReport [("q1", 0), ("q2", 0)] [("q1", 1)] = makeReport [("q1", 0)] [("q1", 1)] ∧
    accOriginalOf (makeReport [("q1", 0), ("q2", 0)] [("q1", 1)]) =
      accOriginalOf (makeReport [("q1", 0)] [("q1", 1)]) ∧
    accCriticOf (makeReport [("q1", 0), ("q2", 0)] [("q1", 1)]) =
      accCriticOf (makeReport [("q1", 0)] [("q1", 1)]) ∧
    "q2" ∈ ([("q1", 0), ("q2", 0)] : List (String × Nat)).map (fun p => p.1) ∧
    "q2" ∉ ([("q1", 1)] : List (String × Nat)).map (fun p => p.1) := by
  have h : makeReport [("q1", 0), ("q2", 0)] [("q1", 1)] = makeReport [("q1", 0)] [("q1", 1)] := by
    decide
  exact ⟨h, congrArg accOriginalOf h, congrArg accCriticOf h, by decide, by decide⟩

theorem addWeight_key {m : List (List Char × ℚ)} {k0 : List Char} {x : ℚ}
    {p : List Char × ℚ} (h : p ∈ addWeight m k0 x) :
    (∃ v, (p.1, v) ∈ m) ∨ p.1 = k0 := by
  rw [addWeight] at h
  by_cases hc : m.any (fun q => q.1 = k0)
  · rw [if_pos hc] at h
    obtain ⟨q, hq, hqe⟩ := List.mem_map.mp h
    left
    refine ⟨q.2, ?_⟩
    have hp1 : p.1 = q.1 := by
      by_cases hqk : q.1 = k0
      · rw [if_pos hqk] at hqe; rw [← hqe]
      · rw [if_neg hqk] at hqe; rw [← hqe]
    rw [hp1]
    simpa using hq
  · rw [if_neg hc] at h
    rcases List.mem_append.mp h with h' | h'
    · exact Or.inl ⟨p.2, by simpa using h'⟩
    · right
      have : p = (k0, x) := by simpa using h'
      rw [this]

theorem upsertRawMax_key {m : List (List Char × ℚ)} {k0 : List Char} {x : ℚ}
    {p : List Char × ℚ} (h : p ∈ upsertRawMax m k0 x) :
    (∃ v, (p.1, v) ∈ m) ∨ p.1 = k0 := by
  rw [upsertRawMax] at h
  by_cases hc : m.any (fun q => q.1 = k0)
  · rw [if_pos hc] at h
    obtain ⟨q, hq, hqe⟩ := List.mem_map.mp h
    left
    refine ⟨q.2, ?_⟩
    have hp1 : p.1 = q.1 := by
      by_cases hqk : q.1 = k0
      · rw [if_pos hqk] at hqe; rw [← hqe]
      · rw [if_neg hqk] at hqe; rw [← hqe]
    rw [hp1]
    simpa using hq
  · rw [if_neg hc] at h
    rcases List.mem_append.mp h with h' | h'
    · exact Or.inl ⟨p.2, by simpa using h'⟩
    · right
      have : p = (k0, max 0 x) := by simpa using h'
      rw [this]

theorem upsertRawMax_mono {m : List (List Char × ℚ)} {k0 k : List Char} {x v : ℚ}
    (h : (k, v) ∈ m) : ∃ v', (k, v') ∈ upsertRawMax m k0 x ∧ v ≤ v' := by
  rw [upsertRawMax]
  by_cases hc : m.any (fun q => q.1 = k0)
  · rw [if_pos hc]
    by_cases hk : k = k0
    · refine ⟨max v x, ?_, le_max_left _ _⟩
      have := List.mem_map_of_mem (fun p => if p.1 = k0 then (p.1, max p.2 x) else p) h
      simpa [hk] using this
    · refine ⟨v, ?_, le_refl v⟩
      have := List.mem_map_of_mem (fun p => if p.1 = k0 then (p.1, max p.2 x) else p) h
      simpa [hk] using this
  · rw [if_neg hc]
    exact ⟨v, List.mem_append_left _ h, le_refl v⟩

theorem upsertRawMax_self (m : List (List Char × ℚ)) (k0 : List Char) (x : ℚ) :
    ∃ v', (k0, v') ∈ upsertRawMax m k0 x ∧ x ≤ v' := by
  rw [upsertRawMax]
  by_cases hc : m.any (fun q => q.1 = k0)
  · rw [if_pos hc]
    obtain ⟨q, hq, hqe⟩ := List.any_eq_true.mp hc
    have hq1 : q.1 = k0 := by simpa using hqe
    refine ⟨max q.2 x, ?_, le_max_right _ _⟩
    have := List.mem_map_of_mem (fun p => if p.1 = k0 then (p.1, max p.2 x) else p) hq
    simpa [hq1] using this
  · rw [if_neg hc]
    exact ⟨max 0 x, List.mem_append_right _ (by simp), le_max_right _ _⟩

theorem voteStep_unique_key (w : ℚ → ℚ) (st : VoteState) (b : List Char × List ℚ)
    {p : List Char × ℚ} (h : p ∈ (voteStep w st b).unique) :
    (∃ v, (p.1, v) ∈ st.unique) ∨
    (b.1 = p.1 ∧ b.1 ≠ errAnswer ∧ ¬ rawAvg b.2 < scoreThreshold) := by
  rw [voteStep] at h
  by_cases he : b.1 = errAnswer
  · rw [if_pos he] at h
    exact Or.inl ⟨p.2, by simpa using h⟩
  · rw [if_neg he] at h
    by_cases ht : rawAvg b.2 < scoreThreshold
    · rw [if_pos ht] at h
      exact Or.inl ⟨p.2, by simpa using h⟩
    · rw [if_neg ht] at h
      rcases addWeight_key h with h' | h'
      · exact Or.inl h'
      · exact Or.inr ⟨h'.symm, he, ht⟩

theorem voteStep_raws_key (w : ℚ → ℚ) (st : VoteState) (b : List Char × List ℚ)
    {p : List Char × ℚ} (h : p ∈ (voteStep w st b).raws) :
    (∃ v, (p.1, v) ∈ st.raws) ∨ (p.1 = b.1 ∧ b.1 ≠ errAnswer) := by
  rw [voteStep] at h
  by_cases he : b.1 = errAnswer
  · rw [if_pos he] at h
    exact Or.inl ⟨p.2, by simpa using h⟩
  · rw [if_neg he] at h
    by_cases ht : rawAvg b.2 < scoreThreshold
    · rw [if_pos ht] at h
      simp only at h
      rcases upsertRawMax_key h with h' | h'
      · exact Or.inl h'
      · exact Or.inr ⟨h', he⟩
    · rw [if_neg ht] at h
      simp only at h
      rcases upsertRawMax_key h with h' | h'
      · exact Or.inl h'
      · exact Or.inr ⟨h', he⟩

theorem voteStep_raws_mono (w : ℚ → ℚ) (st : VoteState) (b : List Char × List ℚ)
    {k : List Char} {v : ℚ} (h : (k, v) ∈ st.raws) :
    ∃ v', (k, v') ∈ (voteStep w st b).raws ∧ v ≤ v' := by
  rw [voteStep]
  by_cases he : b.1 = errAnswer
  · rw [if_pos he]
    exact ⟨v, h, le_refl v⟩
  · rw [if_neg he]
    by_cases ht : rawAvg b.2 < scoreThreshold
    · rw [if_pos ht]
      exact upsertRawMax_mono h
    · rw [if_neg ht]
      exact upsertRawMax_mono h

theorem voteStep_raws_self (w : ℚ → ℚ) (st : VoteState) (b : List Char × List ℚ)
    (he : b.1 ≠ errAnswer) :
    ∃ v, (b.1, v) ∈ (voteStep w st b).raws ∧ rawAvg b.2 ≤ v := by
  rw [voteStep, if_neg he]
  by_cases ht : rawAvg b.2 < scoreThreshold
  · rw [if_pos ht]
    exact upsertRawMax_self _ _ _
  · rw [if_neg ht]
    exact upsertRawMax_self _ _ _

theorem voteFold_unique_key (w : ℚ → ℚ) :
    ∀ (bs : List (List Char × List ℚ)) (st : VoteState)
      (p : List Char × ℚ), p ∈ (bs.foldl (voteStep w) st).unique →
      (∃ v, (p.1, v) ∈ st.unique) ∨
      ∃ b ∈ bs, b.1 = p.1 ∧ b.1 ≠ errAnswer ∧ ¬ rawAvg b.2 < scoreThreshold := by
  intro bs
  induction bs with
  | nil => intro st p h; exact Or.inl ⟨p.2, by simpa using h⟩
  | cons b bs ih =>
    intro st p h
    rw [List.foldl_cons] at h
    rcases ih _ _ h with ⟨v, hv⟩ | ⟨b', hb', h'⟩
    · rcases voteStep_unique_key w st b hv with h' | h'
      · exact Or.inl h'
      · exact Or.inr ⟨b, by simp, h'⟩
    · exact Or.inr ⟨b', List.mem_cons_of_mem _ hb', h'⟩

theorem voteFold_raws_key (w : ℚ → ℚ) :
    ∀ (bs : List (List Char × List ℚ)) (st : VoteState)
      (p : List Char × ℚ), p ∈ (bs.foldl (voteStep w) st).raws →
      (∃ v, (p.1, v) ∈ st.raws) ∨ ∃ b ∈ bs, p.1 = b.1 ∧ b.1 ≠ errAnswer := by
  intro bs
  induction bs with
  | nil => intro st p h; exact Or.inl ⟨p.2, by simpa using h⟩
  | cons b bs ih =>
    intro st p h
    rw [List.foldl_cons] at h
    rcases ih _ _ h with ⟨v, hv⟩ | ⟨b', hb', h'⟩
    · rcases voteStep_raws_key w st b hv with h' | h'
      · exact Or.inl h'
      · exact Or.inr ⟨b, by simp, h'⟩
    · exact Or.inr ⟨b', List.mem_cons_of_mem _ hb', h'⟩

theorem voteFold_raws_mono (w : ℚ → ℚ) :
    ∀ (bs : List (List Char × List ℚ)) (st : VoteState) (k : List Char) (v : ℚ),
      (k, v) ∈ st.raws →
      ∃ v', (k, v') ∈ (bs.foldl (voteStep w) st).raws ∧ v ≤ v' := by
  intro bs
  induction bs with
  | nil => intro st k v h; exact ⟨v, h, le_refl v⟩
  | cons b bs ih =>
    intro st k v h
    rw [List.foldl_cons]
    obtain ⟨v1, hv1, hle1⟩ := voteStep_raws_mono w st b h
    obtain ⟨v2, hv2, hle2⟩ := ih _ _ _ hv1
    exact ⟨v2, hv2, hle1.trans hle2⟩

theorem voteFold_raws_dominates (w : ℚ → ℚ) :
    ∀ (bs : List (List Char × List ℚ)) (st : VoteState)
      (b : List Char × List ℚ), b ∈ bs → b.1 ≠ errAnswer →
      ∃ v, (b.1, v) ∈ (bs.foldl (voteStep w) st).raws ∧ rawAvg b.2 ≤ v := by
  intro bs
  induction bs with
  | nil => intro st b h; simp at h
  | cons b0 bs ih =>
    intro st b hb he
    rw [List.foldl_cons]
    rcases List.mem_cons.mp hb with rfl | hb'
    · obtain ⟨v1, hv1, hle1⟩ := voteStep_raws_self w st b he
      obtain ⟨v2, hv2, hle2⟩ := voteFold_raws_mono w bs _ _ _ hv1
      exact ⟨v2, hv2, hle1.trans hle2⟩
    · exact ih _ b hb' he

/-- C5: in the safety-gate weighted vote of `gen_math_critic_actor_3_7.py`
(for an arbitrary weight transform `w`, standing for `math.exp(alpha * _)`):
every answer all of whose ballots fall below the score threshold is excluded
from `unique_answers` (the weighted vote); and whenever every non-sentinel
ballot falls below the threshold while at least one non-sentinel ballot
exists, the fallback fires and the decision is a non-sentinel answer whose
recorded raw score dominates every entry of `raw_scores_map` and every
ballot's raw average — the single highest raw confidence — rather than the
`"Error"` sentinel. -/
theorem C5_safety_gate_fallback (w : ℚ → ℚ) (ballots : List (List Char × List ℚ)) :
    (∀ a : List Char, (∀ b ∈ ballots, b.1 = a → rawAvg b.2 < scoreThreshold) →
      ∀ p ∈ (voteFold w ballots).unique, p.1 ≠ a) ∧
    ((∀ b ∈ ballots, b.1 ≠ errAnswer → rawAvg b.2 < scoreThreshold) →
     (∃ b ∈ ballots, b.1 ≠ errAnswer) →
      (weightedVote w ballots).2 = true ∧
      (weightedVote w ballots).1 ≠ errAnswer ∧
      ∃ v, ((weightedVote w ballots).1, v) ∈ (voteFold w ballots).raws ∧
        (∀ p ∈ (voteFold w ballots).raws, p.2 ≤ v) ∧
        (∀ b ∈ ballots, b.1 ≠ errAnswer → rawAvg b.2 ≤ v)) := by
  constructor
  · intro a ha p hp hpa
    rcases voteFold_unique_key w ballots ⟨[], []⟩ p hp with ⟨v, hv⟩ | ⟨b, hb, hbp, hberr, hbthr⟩
    · simp at hv
    · exact hbthr (ha b hb (hbp.trans hpa))
  · intro hall hex
    have hun : (voteFold w ballots).unique = [] := by
      rw [List.eq_nil_iff_forall_not_mem]
      intro p hp
      rcases voteFold_unique_key w ballots ⟨[], []⟩ p hp with ⟨v, hv⟩ | ⟨b, hb, _, hberr, hbthr⟩
      · simp at hv
      · exact hbthr (hall b hb hberr)
    obtain ⟨b0, hb0, hb0e⟩ := hex
    obtain ⟨v0, hv0, _⟩ := voteFold_raws_dominates w ballots ⟨[], []⟩ b0 hb0 hb0e
    have hv0' : (b0.1, v0) ∈ (voteFold w ballots).raws := hv0
    rcases hr : (voteFold w ballots).raws with _ | ⟨e, rest⟩
    · rw [hr] at hv0'; simp at hv0'
    · have hwv : weightedVote w ballots = ((firstMaxBy (fun p => p.2) e rest).1, true) := by
        rw [weightedVote]
        rw [hun, hr]
        rfl
      have hspec := firstMaxBy_spec (fun p : List Char × ℚ => p.2) rest e
      have hbest_mem : firstMaxBy (fun p : List Char × ℚ => p.2) e rest ∈
          (voteFold w ballots).raws := by
        rw [hr]
        rcases hspec with ⟨heq, _⟩ | ⟨l1, l2, hsp, _, _, _⟩
        · rw [heq]; simp
        · have hmem : firstMaxBy (fun p : List Char × ℚ => p.2) e rest ∈
              l1 ++ firstMaxBy (fun p : List Char × ℚ => p.2) e rest :: l2 :=
            List.mem_append_right _ (List.mem_cons_self _ _)
          rw [← hsp] at hmem
          exact List.mem_cons_of_mem _ hmem
      have hbest_max : ∀ p ∈ (voteFold w ballots).raws,
          p.2 ≤ (firstMaxBy (fun p : List Char × ℚ => p.2) e rest).2 := by
        intro p hp
        rw [hr] at hp
        rcases hspec with ⟨heq, hle⟩ | ⟨l1, l2, hsp, hlt, h1, h2⟩
        · rcases List.mem_cons.mp hp with rfl | hp'
          · rw [heq]
          · rw [heq]; exact hle p hp'
        · rcases List.mem_cons.mp hp with rfl | hp'
          · exact le_of_lt hlt
          · rw [hsp] at hp'
            rcases List.mem_append.mp hp' with hp1 | hp2
            · exact le_of_lt (h1 p hp1)
            · rcases List.mem_cons.mp hp2 with rfl | hp3
              · exact le_refl _
              · exact h2 p hp3
      have hne : (firstMaxBy (fun p : List Char × ℚ => p.2) e rest).1 ≠ errAnswer := by
        rcases voteFold_raws_key w ballots ⟨[], []⟩ _ hbest_mem with ⟨v, hv⟩ | ⟨b, _, hbp, hberr⟩
        · simp at hv
        · rw [hbp]; exact hberr
      rw [hwv]
      refine ⟨rfl, hne, (firstMaxBy (fun p : List Char × ℚ => p.2) e rest).2, ?_, ?_, ?_⟩
      · have hm := hbest_mem
        rw [hr] at hm
        simpa using hm
      · intro p hp
        exact hbest_max p (by rw [hr]; exact hp)
      · intro b hb hbe
        obtain ⟨v, hv, hle⟩ := voteFold_raws_dominates w ballots ⟨[], []⟩ b hb hbe
        exact hle.trans (hbest_max (b.1, v) hv)

/-- Witness for C5: two non-sentinel ballots, `"5"` with raw average 3 and
`"7"` with raw average 2, both below the threshold 4 — the fallback fires and
the decision carries the single highest raw confidence. -/
theorem C5_safety_gate_fallback_witness :
    (weightedVote id [(['5'], [(3 : ℚ)]), (['7'], [(2 : ℚ)])]).2 = true ∧
    (weightedVote id [(['5'], [(3 : ℚ)]), (['7'], [(2 : ℚ)])]).1 ≠ errAnswer ∧
    ∃ v, ((weightedVote id [(['5'], [(3 : ℚ)]), (['7'], [(2 : ℚ)])]).1, v) ∈
        (voteFold id [(['5'], [(3 : ℚ)]), (['7'], [(2 : ℚ)])]).raws ∧
      (∀ p ∈ (voteFold id [(['5'], [(3 : ℚ)]), (['7'], [(2 : ℚ)])]).raws, p.2 ≤ v) ∧
      (∀ b ∈ [(['5'], [(3 : ℚ)]), (['7'], [(2 : ℚ)])],
        b.1 ≠ errAnswer → rawAvg b.2 ≤ v) :=
  (C5_safety_gate_fallback id [(['5'], [(3 : ℚ)]), (['7'], [(2 : ℚ)])]).2
    (by
      intro b hb _
      simp only [List.mem_cons, List.not_mem_nil, or_false] at hb
      rcases hb with rfl | rfl
      · norm_num [rawAvg, scoreThreshold]
      · norm_num [rawAvg, scoreThreshold])
    ⟨(['5'], [(3 : ℚ)]), by simp, by decide⟩

theorem find?_split {α : Type} (p : α → Bool) :
    ∀ (l : List α) (a : α), l.find? p = some a →
      ∃ l1 l2, l = l1 ++ a :: l2 ∧ p a = true ∧ ∀ y ∈ l1, p y = false := by
  intro l
  induction l with
  | nil => intro a h; simp at h
  | cons x t ih =>
    intro a h
    by_cases hx : p x
    · rw [List.find?_cons_of_pos _ hx] at h
      have hax : a = x := by simpa using h.symm
      exact ⟨[], t, by rw [hax]; rfl, hax ▸ hx, by simp⟩
    · rw [List.find?_cons_of_neg _ (by simpa using hx)] at h
      obtain ⟨l1, l2, hsp, hpa, hl1⟩ := ih a h
      refine ⟨x :: l1, l2, by rw [List.cons_append, ← hsp], hpa, ?_⟩
      intro y hy
      rcases List.mem_cons.mp hy with rfl | hy'
      · simpa using hx
      · exact hl1 y hy'

/-- C2 counterexample: on `\boxed{5}\boxed{,}` the last marker's payload
cleans to the empty string, and the extractor returns `"5"` — the cleaned
payload of an **earlier** marker — not the cleaned payload of the last
marker. -/
theorem C2_counterexample :
    (boxedMatches ("\x5cboxed\x7b5\x7d\x5cboxed\x7b,\x7d".toList)).reverse.head? = some [','] ∧
    cleanPayload [','] = [] ∧
    parse_answer_analyze ("\x5cboxed\x7b5\x7d\x5cboxed\x7b,\x7d".toList) = some ['5'] ∧
    parse_answer_analyze ("\x5cboxed\x7b5\x7d\x5cboxed\x7b,\x7d".toList) ≠
      ((boxedMatches ("\x5cboxed\x7b5\x7d\x5cboxed\x7b,\x7d".toList)).reverse.head?).map
        cleanPayload := by
  refine ⟨by decide, by decide, by decide, by decide⟩

/-- C2 (amended): the extractor of `gsm/analyze_results.py` returns the
cleaned payload of the **last marker whose cleaned payload is non-empty**:
every later marker cleans to the empty string.  (Markers cleaning to empty are
skipped; when every marker cleans to empty the empty answer is returned.) -/
theorem C2_last_nonempty_marker (s : List Char) (ms : List (List Char))
    (hms : boxedMatches s = ms) (hne : ∃ m ∈ ms, cleanPayload m ≠ []) :
    ∃ m1 mm m2, ms = m1 ++ mm :: m2 ∧ cleanPayload mm ≠ [] ∧
      (∀ m' ∈ m2, cleanPayload m' = []) ∧
      parse_answer_analyze s = some (cleanPayload mm) := by
  rcases hf : ms.reverse.find? (fun m => decide (cleanPayload m ≠ [])) with _ | mm
  · exfalso
    obtain ⟨m, hm, hmne⟩ := hne
    have := List.find?_eq_none.mp hf m (List.mem_reverse.mpr hm)
    simp at this
    exact hmne this
  · obtain ⟨r1, r2, hsp, hp, hr1⟩ := find?_split _ ms.reverse mm hf
    have hms2 : ms = r2.reverse ++ mm :: r1.reverse := by
      have := congrArg List.reverse hsp
      simpa [List.reverse_append] using this
    refine ⟨r2.reverse, mm, r1.reverse, hms2, by simpa using hp, ?_, ?_⟩
    · intro m' hm'
      have := hr1 m' (List.mem_reverse.mp hm')
      simpa using this
    · rw [parse_answer_analyze, hms, boxedSolution.eq_def, hf]

/-- Witness for C2: on `\boxed{3} and \boxed{4}` the amended statement places
the returned answer at the last non-empty-cleaning marker. -/
theorem C2_last_nonempty_marker_witness :
    ∃ m1 mm m2, boxedMatches ("\x5cboxed\x7b3\x7d and \x5cboxed\x7b4\x7d".toList) =
        m1 ++ mm :: m2 ∧ cleanPayload mm ≠ [] ∧
      (∀ m' ∈ m2, cleanPayload m' = []) ∧
      parse_answer_analyze ("\x5cboxed\x7b3\x7d and \x5cboxed\x7b4\x7d".toList) =
        some (cleanPayload mm) :=
  C2_last_nonempty_marker _ _ rfl ⟨['4'], by decide, by decide⟩

theorem searchHash_eq_none : ∀ {s : List Char}, containsHash4 s = false →
    searchHash s = none := by
  intro s
  induction s with
  | nil => intro _; rfl
  | cons c t ih =>
    intro h
    rw [containsHash4, Bool.or_eq_false_iff] at h
    rw [searchHash, if_neg (of_decide_eq_false h.1)]
    exact ih h.2

theorem dropWhile_eq_self_of_noDigit {t : List Char}
    (h : ∀ c ∈ t, c.isDigit = false) : t.dropWhile Char.isDigit = t := by
  cases t with
  | nil => rfl
  | cons c t' => exact List.dropWhile_cons_of_neg (by simp [h c (by simp)])

theorem takeWhile_eq_nil_of_noDigit {t : List Char}
    (h : ∀ c ∈ t, c.isDigit = false) : t.takeWhile Char.isDigit = [] := by
  cases t with
  | nil => rfl
  | cons c t' => exact List.takeWhile_cons_of_neg (by simp [h c (by simp)])

theorem numBranch1_eq_none_of_noDigit {sgn t : List Char}
    (h : ∀ c ∈ t, c.isDigit = false) : numBranch1 sgn t = none := by
  rw [numBranch1.eq_def, dropWhile_eq_self_of_noDigit h]
  cases t with
  | nil => rfl
  | cons c t' =>
    simp only []
    by_cases hc : c = '.'
    · rw [if_pos hc,
        takeWhile_eq_nil_of_noDigit (fun x hx => h x (List.mem_cons_of_mem _ hx))]
      rw [if_pos rfl]
    · rw [if_neg hc]

theorem numBranch2_eq_none_of_noDigit {s : List Char}
    (h : ∀ c ∈ s, c.isDigit = false) : numBranch2 s = none := by
  rw [numBranch2.eq_def]
  cases s with
  | nil => rfl
  | cons c t => simp only []; rw [if_neg (by simp [h c (by simp)])]

theorem matchNumberAt_eq_none_of_noDigit {s : List Char}
    (h : ∀ c ∈ s, c.isDigit = false) : matchNumberAt s = none := by
  cases s with
  | nil => rfl
  | cons c t =>
    rw [matchNumberAt]
    by_cases hc : c = '-' ∨ c = '+'
    · rw [if_pos hc,
        numBranch1_eq_none_of_noDigit (fun x hx => h x (List.mem_cons_of_mem _ hx)),
        numBranch2_eq_none_of_noDigit h]
    · rw [if_neg hc, numBranch1_eq_none_of_noDigit h, numBranch2_eq_none_of_noDigit h]

theorem findNumbersF_eq_nil_of_noDigit :
    ∀ (fuel : Nat) (s : List Char), (∀ c ∈ s, c.isDigit = false) →
      findNumbersF fuel s = [] := by
  intro fuel
  induction fuel with
  | zero => intro s _; cases s <;> rfl
  | succ fuel ih =>
    intro s h
    cases s with
    | nil => rfl
    | cons c t =>
      rw [findNumbersF, matchNumberAt_eq_none_of_noDigit h]
      exact ih t (fun x hx => h x (List.mem_cons_of_mem _ hx))

theorem trailingNumberAt_eq_none_of_noDigit {s : List Char}
    (h : ∀ c ∈ s, c.isDigit = false) : trailingNumberAt s = none := by
  rw [trailingNumberAt, if_pos (takeWhile_eq_nil_of_noDigit h)]

theorem lastTrailingNumber_eq_none_of_noDigit :
    ∀ {s : List Char}, (∀ c ∈ s, c.isDigit = false) →
      lastTrailingNumber s = none := by
  intro s
  induction s with
  | nil => intro _; rfl
  | cons c t ih =>
    intro h
    rw [lastTrailingNumber, trailingNumberAt_eq_none_of_noDigit h]
    exact ih (fun x hx => h x (List.mem_cons_of_mem _ hx))

/-- C6 counterexample: `"#### abc"` contains no digit at all, yet the
extractor of `gsm/compare_accuracies.py` returns `"abc"` — the trimmed tail of
the `####` marker — not the `None` sentinel. -/
theorem C6_counterexample :
    (∀ c ∈ "#### abc".toList, c.isDigit = false) ∧
    parse_answer_compare ("#### abc".toList) = some ("abc".toList) ∧
    parse_answer_compare ("#### abc".toList) ≠ none := by
  refine ⟨by decide, by decide, by decide⟩

/-- C6 (amended): both extractors are total functions (they never raise), the
empty string yields `None`, and an input containing no digit yields `None`
**provided it also contains no marker** — no `####` for the
`compare_accuracies` extractor, no `\boxed{...}` match for the
`analyze_results` extractor.  (A digit-free input carrying a marker can return
the marker's non-numeric tail or the empty answer instead, as the
counterexample shows.) -/
theorem C6_no_number_no_marker_none :
    parse_answer_compare [] = none ∧ parse_answer_analyze [] = none ∧
    (∀ s : List Char, (∀ c ∈ s, c.isDigit = false) → containsHash4 s = false →
      parse_answer_compare s = none) ∧
    (∀ s : List Char, (∀ c ∈ s, c.isDigit = false) → boxedMatches s = [] →
      parse_answer_analyze s = none) := by
  refine ⟨rfl, rfl, ?_, ?_⟩
  · intro s hd hh
    rw [parse_answer_compare]
    by_cases hs : s = []
    · rw [if_pos hs]
    · rw [if_neg hs, searchHash_eq_none hh, findNumbers,
        findNumbersF_eq_nil_of_noDigit _ _ hd]
      rfl
  · intro s hd hb
    rw [parse_answer_analyze, hb]
    exact lastTrailingNumber_eq_none_of_noDigit hd

/-- Witness for C6: a digit-free, marker-free input yields `None` from both
extractors. -/
theorem C6_no_number_no_marker_none_witness :
    parse_answer_compare ("hello there!".toList) = none ∧
    parse_answer_analyze ("hello there!".toList) = none :=
  ⟨C6_no_number_no_marker_none.2.2.1 _ (by decide) (by decide),
   C6_no_number_no_marker_none.2.2.2 _ (by decide) (by decide)⟩

theorem takeWhile_all_append {p : Char → Bool} :
    ∀ (l1 : List Char) (x : Char) (l2 : List Char),
      (∀ c ∈ l1, p c = true) → p x = false →
      (l1 ++ x :: l2).takeWhile p = l1 ∧ (l1 ++ x :: l2).dropWhile p = x :: l2 := by
  intro l1
  induction l1 with
  | nil =>
    intro x l2 _ hx
    exact ⟨List.takeWhile_cons_of_neg (by simp [hx]),
      List.dropWhile_cons_of_neg (by simp [hx])⟩
  | cons a l1 ih =>
    intro x l2 h hx
    have ha : p a = true := h a (by simp)
    have hrec := ih x l2 (fun c hc => h c (List.mem_cons_of_mem _ hc)) hx
    constructor
    · rw [List.cons_append, List.takeWhile_cons_of_pos (by simp [ha]), hrec.1]
    · rw [List.cons_append, List.dropWhile_cons_of_pos (by simp [ha]), hrec.2]

theorem digit_not_sign {c : Char} (hc : c.isDigit = true) : ¬(c = '-' ∨ c = '+') := by
  intro h
  rcases h with rfl | rfl <;> exact absurd hc (by decide)

/-- A non-empty all-digit token matches the number alternation exactly,
leaving nothing. -/
theorem matchNumberAt_all_digits {tok : List Char} (hne : tok ≠ [])
    (hall : ∀ c ∈ tok, c.isDigit = true) : matchNumberAt tok = some (tok, []) := by
  cases tok with
  | nil => exact absurd rfl hne
  | cons c t =>
    have hc : c.isDigit = true := hall c (by simp)
    have hdw : (c :: t).dropWhile Char.isDigit = [] := List.dropWhile_eq_nil_iff.mpr hall
    have htwtok : (c :: t).takeWhile Char.isDigit = c :: t :=
      List.takeWhile_eq_self_iff.mpr hall
    rw [matchNumberAt, if_neg (digit_not_sign hc)]
    rw [numBranch1.eq_def, hdw]
    simp only []
    rw [numBranch2.eq_def]
    simp only []
    rw [if_pos hc, htwtok, hdw]

/-- A (possibly signed) decimal token `sgn ++ d1 ++ '.' :: d2` passes the
first branch of the alternation, leaving nothing. -/
theorem numBranch1_token (sgn d1 d2 : List Char)
    (hd1 : ∀ c ∈ d1, c.isDigit = true) (hd2 : ∀ c ∈ d2, c.isDigit = true)
    (hne : d2 ≠ []) :
    numBranch1 sgn (d1 ++ '.' :: d2) = some (sgn ++ d1 ++ '.' :: d2, []) := by
  obtain ⟨htw, hdw⟩ := takeWhile_all_append d1 '.' d2 hd1 (by decide : ('.').isDigit = false)
  rw [numBranch1.eq_def, hdw]
  simp only [if_true]
  rw [List.takeWhile_eq_self_iff.mpr hd2]
  rw [if_neg hne, htw, List.dropWhile_eq_nil_iff.mpr hd2]

theorem matchNumberAt_cons (c : Char) (t : List Char) :
    matchNumberAt (c :: t) =
      if c = '-' ∨ c = '+' then
        match numBranch1 [c] t with
        | some p => some p
        | none => numBranch2 (c :: t)
      else
        match numBranch1 [] (c :: t) with
        | some p => some p
        | none => numBranch2 (c :: t) := rfl

/-- The token of a successful first-branch match is itself a maximal match. -/
theorem matchNumberAt_token_b1 {sgn d1 d2 : List Char}
    (hs : sgn = [] ∨ sgn = ['-'] ∨ sgn = ['+'])
    (hd1 : ∀ c ∈ d1, c.isDigit = true) (hd2 : ∀ c ∈ d2, c.isDigit = true)
    (hne : d2 ≠ []) :
    matchNumberAt (sgn ++ d1 ++ '.' :: d2) = some (sgn ++ d1 ++ '.' :: d2, []) := by
  rcases hs with rfl | rfl | rfl
  · simp only [List.nil_append]
    cases d1 with
    | nil =>
      simp only [List.nil_append]
      rw [matchNumberAt, if_neg (by decide : ¬(('.' : Char) = '-' ∨ ('.' : Char) = '+'))]
      have := numBranch1_token [] [] d2 hd1 hd2 hne
      simp only [List.nil_append] at this
      rw [this]
    | cons a d1' =>
      have ha : a.isDigit = true := hd1 a (by simp)
      rw [List.cons_append, matchNumberAt, if_neg (digit_not_sign ha), ← List.cons_append]
      have := numBranch1_token [] (a :: d1') d2 hd1 hd2 hne
      simp only [List.nil_append] at this
      rw [this]
  · simp only [List.cons_append, List.nil_append]
    rw [matchNumberAt_cons, if_pos (Or.inl rfl)]
    have hb := numBranch1_token ['-'] d1 d2 hd1 hd2 hne
    simp only [List.cons_append, List.nil_append] at hb
    rw [hb]
  · simp only [List.cons_append, List.nil_append]
    rw [matchNumberAt_cons, if_pos (Or.inr rfl)]
    have hb := numBranch1_token ['+'] d1 d2 hd1 hd2 hne
    simp only [List.cons_append, List.nil_append] at hb
    rw [hb]

theorem numBranch2_some_inv {s tok rest : List Char}
    (h : numBranch2 s = some (tok, rest)) :
    s = tok ++ rest ∧ tok ≠ [] ∧ (∀ c ∈ tok, c.isDigit = true) := by
  rw [numBranch2.eq_def] at h
  cases s with
  | nil => simp at h
  | cons c t =>
    simp only [] at h
    by_cases hc : c.isDigit = true
    · rw [if_pos hc] at h
      have hp : (c :: t).takeWhile Char.isDigit = tok ∧
          (c :: t).dropWhile Char.isDigit = rest := by simpa using h
      refine ⟨?_, ?_, ?_⟩
      · rw [← hp.1, ← hp.2, List.takeWhile_append_dropWhile]
      · rw [← hp.1, List.takeWhile_cons_of_pos (by simp [hc])]; simp
      · intro x hx
        rw [← hp.1] at hx
        exact List.mem_takeWhile_imp hx
    · rw [if_neg hc] at h; simp at h

theorem numBranch1_some_inv {sgn s1 tok rest : List Char}
    (h : numBranch1 sgn s1 = some (tok, rest)) :
    ∃ d1 d2, (∀ c ∈ d1, c.isDigit = true) ∧ (∀ c ∈ d2, c.isDigit = true) ∧ d2 ≠ [] ∧
      s1 = d1 ++ '.' :: (d2 ++ rest) ∧ tok = sgn ++ d1 ++ '.' :: d2 := by
  rw [numBranch1.eq_def] at h
  rcases hdw : s1.dropWhile Char.isDigit with _ | ⟨c, s3⟩ <;> rw [hdw] at h
  · simp at h
  · simp only [] at h
    by_cases hc : c = '.'
    · subst hc
      rw [if_pos rfl] at h
      by_cases hd2 : s3.takeWhile Char.isDigit = []
      · rw [if_pos hd2] at h; simp at h
      · rw [if_neg hd2] at h
        have hp : sgn ++ s1.takeWhile Char.isDigit ++ '.' :: s3.takeWhile Char.isDigit = tok ∧
            s3.dropWhile Char.isDigit = rest := by simpa using h
        refine ⟨s1.takeWhile Char.isDigit, s3.takeWhile Char.isDigit,
          (fun x hx => List.mem_takeWhile_imp hx), (fun x hx => List.mem_takeWhile_imp hx),
          hd2, ?_, hp.1.symm⟩
        rw [← hp.2]
        calc s1 = s1.takeWhile Char.isDigit ++ s1.dropWhile Char.isDigit :=
              (List.takeWhile_append_dropWhile _ _).symm
        _ = s1.takeWhile Char.isDigit ++ '.' :: s3 := by rw [hdw]
        _ = s1.takeWhile Char.isDigit ++
              '.' :: (s3.takeWhile Char.isDigit ++ s3.dropWhile Char.isDigit) := by
              rw [List.takeWhile_append_dropWhile]
    · rw [if_neg hc] at h; simp at h

theorem matchNumberAt_some {s tok rest : List Char}
    (h : matchNumberAt s = some (tok, rest)) :
    s = tok ++ rest ∧ tok ≠ [] ∧ matchNumberAt tok = some (tok, []) := by
  cases s with
  | nil => simp [matchNumberAt] at h
  | cons c t =>
    rw [matchNumberAt_cons] at h
    by_cases hc : c = '-' ∨ c = '+'
    · rw [if_pos hc] at h
      rcases hb1 : numBranch1 [c] t with _ | p <;> rw [hb1] at h
      · rw [numBranch2.eq_def] at h
        simp only [] at h
        rw [if_neg (by rcases hc with rfl | rfl <;> decide)] at h
        simp at h
      · have hp : p = (tok, rest) := by simpa using h
        rw [hp] at hb1
        obtain ⟨d1, d2, hd1, hd2, hne, hs1, htok⟩ := numBranch1_some_inv hb1
        refine ⟨?_, ?_, ?_⟩
        · rw [hs1, htok]
          simp [List.append_assoc]
        · rw [htok]
          rcases hc with rfl | rfl <;> simp
        · rw [htok]
          refine matchNumberAt_token_b1 ?_ hd1 hd2 hne
          rcases hc with rfl | rfl
          · exact Or.inr (Or.inl rfl)
          · exact Or.inr (Or.inr rfl)
    · rw [if_neg hc] at h
      rcases hb1 : numBranch1 [] (c :: t) with _ | p <;> rw [hb1] at h
      · obtain ⟨hseq, hne, hall⟩ := numBranch2_some_inv h
        exact ⟨hseq, hne, matchNumberAt_all_digits hne hall⟩
      · have hp : p = (tok, rest) := by simpa using h
        rw [hp] at hb1
        obtain ⟨d1, d2, hd1, hd2, hne, hs1, htok⟩ := numBranch1_some_inv hb1
        refine ⟨?_, ?_, ?_⟩
        · rw [hs1, htok]
          simp [List.append_assoc]
        · rw [htok]; simp
        · rw [htok]
          exact matchNumberAt_token_b1 (Or.inl rfl) hd1 hd2 hne

theorem matchNumberAt_isSome_of_digit {c : Char} {t : List Char}
    (hc : c.isDigit = true) : matchNumberAt (c :: t) ≠ none := by
  rw [matchNumberAt_cons, if_neg (digit_not_sign hc)]
  rcases hb : numBranch1 [] (c :: t) with _ | p
  · rw [numBranch2.eq_def]
    simp only []
    rw [if_pos hc]
    simp
  · simp

theorem noDigit_of_findNumbersF_nil :
    ∀ (fuel : Nat) (s : List Char), s.length ≤ fuel → findNumbersF fuel s = [] →
      ∀ c ∈ s, c.isDigit = false := by
  intro fuel
  induction fuel with
  | zero =>
    intro s hle _ c hc
    rw [Nat.le_zero, List.length_eq_zero] at hle
    subst hle
    simp at hc
  | succ fuel ih =>
    intro s hle h c hc
    cases s with
    | nil => simp at hc
    | cons x t =>
      rw [findNumbersF] at h
      rcases hm : matchNumberAt (x :: t) with _ | ⟨tok, rest⟩ <;> rw [hm] at h
      · rcases List.mem_cons.mp hc with rfl | hc'
        · by_contra hd
          exact matchNumberAt_isSome_of_digit (by simpa using hd) hm
        · exact ih t (by simpa using Nat.le_of_succ_le_succ hle) h c hc'
      · simp at h

theorem findNumbersF_last :
    ∀ (fuel : Nat) (s : List Char) (ns0 : List (List Char)) (a : List Char),
      s.length ≤ fuel → findNumbersF fuel s = ns0 ++ [a] →
      ∃ pre suf, s = pre ++ a ++ suf ∧ (∀ c ∈ suf, c.isDigit = false) ∧
        matchNumberAt a = some (a, []) := by
  intro fuel
  induction fuel with
  | zero =>
    intro s ns0 a hle h
    rw [Nat.le_zero, List.length_eq_zero] at hle
    subst hle
    rw [show findNumbersF 0 [] = [] from rfl] at h
    exact absurd h.symm (List.append_ne_nil_of_right_ne_nil _ (by simp))
  | succ fuel ih =>
    intro s ns0 a hle h
    cases s with
    | nil =>
      rw [show findNumbersF (fuel + 1) [] = [] from rfl] at h
      exact absurd h.symm (List.append_ne_nil_of_right_ne_nil _ (by simp))
    | cons c t =>
      rw [findNumbersF] at h
      rcases hm : matchNumberAt (c :: t) with _ | ⟨tok, rest⟩ <;> rw [hm] at h
      · obtain ⟨pre, suf, h1, h2, h3⟩ :=
          ih t ns0 a (by simpa using Nat.le_of_succ_le_succ hle) h
        exact ⟨c :: pre, suf, by simp [h1], h2, h3⟩
      · obtain ⟨hseq, hne, hmax⟩ := matchNumberAt_some hm
        have hlen : rest.length ≤ fuel := by
          have hl := congrArg List.length hseq
          simp only [List.length_cons, List.length_append] at hl
          have hpos : 1 ≤ tok.length := List.length_pos.mpr hne
          have hle' : t.length + 1 ≤ fuel + 1 := by simpa using hle
          omega
        cases ns0 with
        | nil =>
          simp only [List.nil_append, List.cons.injEq] at h
          refine ⟨[], rest, ?_, noDigit_of_findNumbersF_nil fuel rest hlen h.2, h.1 ▸ hmax⟩
          rw [List.nil_append, ← h.1]
          exact hseq
        | cons n0 ns0' =>
          simp only [List.cons_append, List.cons.injEq] at h
          obtain ⟨pre, suf, h1, h2, h3⟩ := ih rest ns0' a hlen h.2
          exact ⟨tok ++ pre, suf, by rw [hseq, h1]; simp [List.append_assoc], h2, h3⟩

theorem reverse_head?_eq_some {α : Type} {l : List α} {a : α}
    (h : l.reverse.head? = some a) : ∃ t, l = t ++ [a] := by
  rcases hrev : l.reverse with _ | ⟨b, w⟩
  · rw [hrev] at h; simp at h
  · rw [hrev] at h
    have hb : b = a := by simpa using h
    refine ⟨w.reverse, ?_⟩
    have := congrArg List.reverse hrev
    simpa [hb] using this

theorem trailingNumberAt_digits {tok : List Char} (hne : tok ≠ [])
    (hall : ∀ c ∈ tok, c.isDigit = true) : trailingNumberAt tok = some tok := by
  have htw : tok.takeWhile Char.isDigit = tok := List.takeWhile_eq_self_iff.mpr hall
  have hdw : tok.dropWhile Char.isDigit = [] := List.dropWhile_eq_nil_iff.mpr hall
  rw [trailingNumberAt, if_neg (by rw [htw]; exact hne), hdw, htw]

theorem trailingNumberAt_decimal {d1 d2 : List Char} (hne : d1 ≠ [])
    (hd1 : ∀ c ∈ d1, c.isDigit = true) (hd2 : ∀ c ∈ d2, c.isDigit = true) :
    trailingNumberAt (d1 ++ '.' :: d2) = some (d1 ++ '.' :: d2) := by
  obtain ⟨htw, hdw⟩ := takeWhile_all_append d1 '.' d2 hd1 (by decide : ('.').isDigit = false)
  rw [trailingNumberAt, if_neg (by rw [htw]; exact hne), hdw]
  simp only [if_true]
  rw [List.dropWhile_eq_nil_iff.mpr hd2]
  simp only [List.all_nil, if_true]
  rw [htw, List.takeWhile_eq_self_iff.mpr hd2]

theorem trailingNumberAt_some {s tok : List Char} (h : trailingNumberAt s = some tok) :
    ∃ suf, s = tok ++ suf ∧ (∀ c ∈ suf, pyIsSpace c = true) ∧
      trailingNumberAt tok = some tok := by
  rw [trailingNumberAt] at h
  by_cases hd1 : s.takeWhile Char.isDigit = []
  · rw [if_pos hd1] at h; simp at h
  · rw [if_neg hd1] at h
    have hdigits : ∀ c ∈ s.takeWhile Char.isDigit, c.isDigit = true :=
      fun c hc => List.mem_takeWhile_imp hc
    rcases hdw : s.dropWhile Char.isDigit with _ | ⟨c, r2⟩ <;> rw [hdw] at h
    · have htok : s.takeWhile Char.isDigit = tok := by simpa using h
      refine ⟨[], ?_, by simp, trailingNumberAt_digits (htok ▸ hd1) (htok ▸ hdigits)⟩
      rw [List.append_nil, ← htok]
      calc s = s.takeWhile Char.isDigit ++ s.dropWhile Char.isDigit :=
            (List.takeWhile_append_dropWhile _ _).symm
      _ = s.takeWhile Char.isDigit := by rw [hdw, List.append_nil]
    · simp only [] at h
      by_cases hc : c = '.'
      · subst hc
        rw [if_pos rfl] at h
        by_cases hsp : (r2.dropWhile Char.isDigit).all pyIsSpace
        · rw [if_pos hsp] at h
          have htok : s.takeWhile Char.isDigit ++ '.' :: r2.takeWhile Char.isDigit = tok := by
            simpa using h
          refine ⟨r2.dropWhile Char.isDigit, ?_, ?_, ?_⟩
          · rw [← htok]
            calc s = s.takeWhile Char.isDigit ++ s.dropWhile Char.isDigit :=
                  (List.takeWhile_append_dropWhile _ _).symm
            _ = s.takeWhile Char.isDigit ++ '.' :: r2 := by rw [hdw]
            _ = s.takeWhile Char.isDigit ++
                  '.' :: (r2.takeWhile Char.isDigit ++ r2.dropWhile Char.isDigit) := by
                  rw [List.takeWhile_append_dropWhile]
            _ = (s.takeWhile Char.isDigit ++ '.' :: r2.takeWhile Char.isDigit) ++
                  r2.dropWhile Char.isDigit := by simp [List.append_assoc]
          · intro x hx
            exact List.all_eq_true.mp hsp x hx
          · rw [← htok]
            exact trailingNumberAt_decimal hd1 hdigits
              (fun x hx => List.mem_takeWhile_imp hx)
        · rw [if_neg hsp] at h; simp at h
      · rw [if_neg hc] at h
        by_cases hsp : (c :: r2).all pyIsSpace
        · rw [if_pos hsp] at h
          have htok : s.takeWhile Char.isDigit = tok := by simpa using h
          refine ⟨c :: r2, ?_, fun x hx => List.all_eq_true.mp hsp x hx,
            trailingNumberAt_digits (htok ▸ hd1) (htok ▸ hdigits)⟩
          rw [← htok, ← hdw, List.takeWhile_append_dropWhile]
        · rw [if_neg hsp] at h; simp at h

theorem lastTrailingNumber_some :
    ∀ {s a : List Char}, lastTrailingNumber s = some a →
      ∃ pre suf, s = pre ++ a ++ suf ∧ (∀ c ∈ suf, pyIsSpace c = true) ∧
        trailingNumberAt a = some a := by
  intro s
  induction s with
  | nil => intro a h; simp [lastTrailingNumber] at h
  | cons c t ih =>
    intro a h
    rw [lastTrailingNumber] at h
    rcases ht : trailingNumberAt (c :: t) with _ | tok <;> rw [ht] at h
    · obtain ⟨pre, suf, h1, h2, h3⟩ := ih h
      exact ⟨c :: pre, suf, by simp [h1], h2, h3⟩
    · have htok : tok = a := by simpa using h
      subst htok
      obtain ⟨suf, h1, h2, h3⟩ := trailingNumberAt_some ht
      exact ⟨[], suf, by simpa using h1, h2, h3⟩

/-- C3 counterexample: on `"17 apples."` — a number followed by trailing
prose — the extractor of `gsm/analyze_results.py` returns `None`, not `"17"`:
its fallback pattern `(\d+\.?\d*)\s*$` only matches a number at the end of the
text. -/
theorem C3_counterexample :
    parse_answer_analyze ("17 apples.".toList) = none ∧
    parse_answer_analyze ("17 apples.".toList) ≠ some ("17".toList) := by
  refine ⟨by decide, by decide⟩

/-- C3 (amended): the fallback of `gsm/compare_accuracies.py` returns the last
number-shaped token of the text — the returned answer occurs in the input,
matches the number alternation exactly, and is followed by no digit at all;
the fallback of `gsm/analyze_results.py` instead returns a number only when it
is trailing: the returned answer is followed by whitespace only (and on
`"17 apples."` that variant returns no answer, while `compare_accuracies`
returns `"17"`). -/
theorem C3_fallback_last_number :
    (∀ s a : List Char, containsHash4 s = false → parse_answer_compare s = some a →
      ∃ pre suf, s = pre ++ a ++ suf ∧ (∀ c ∈ suf, c.isDigit = false) ∧
        matchNumberAt a = some (a, [])) ∧
    (∀ s a : List Char, boxedMatches s = [] → parse_answer_analyze s = some a →
      ∃ pre suf, s = pre ++ a ++ suf ∧ (∀ c ∈ suf, pyIsSpace c = true) ∧
        trailingNumberAt a = some a) := by
  constructor
  · intro s a hh hp
    rw [parse_answer_compare] at hp
    by_cases hs : s = []
    · rw [if_pos hs] at hp; simp at hp
    · rw [if_neg hs, searchHash_eq_none hh] at hp
      obtain ⟨ns0, hns⟩ := reverse_head?_eq_some hp
      rw [findNumbers] at hns
      exact findNumbersF_last s.length s ns0 a (le_refl _) hns
  · intro s a hb hp
    rw [parse_answer_analyze, hb] at hp
    exact lastTrailingNumber_some hp

/-- Witness for C3: on `"17 apples."` the `compare_accuracies` extractor
returns `"17"`, which occurs in the text, is number-shaped, and is followed by
no further digit. -/
theorem C3_fallback_last_number_witness :
    parse_answer_compare ("17 apples.".toList) = some ("17".toList) ∧
    ∃ pre suf, "17 apples.".toList = pre ++ "17".toList ++ suf ∧
      (∀ c ∈ suf, c.isDigit = false) ∧
      matchNumberAt ("17".toList) = some ("17".toList, []) :=
  ⟨by decide, C3_fallback_last_number.1 _ _ (by decide) (by decide)⟩
